import Mathlib

/-!
Shallow embedding of the metaheuristic optimization toolkit in
`CodeExamples.py`: the `Candidate` data model, the three local-search
drivers (hill climbing, simulated annealing, tabu search) and the
selection, crossover and mutation operator library, together with proofs
about them.

Conventions of the embedding:

* Python floats are modelled as exact rationals (`ℚ`).
* The pseudo-random source is passed explicitly: each function takes the
  values the corresponding `random.*` calls would produce.
  `random.uniform(a, b)` is modelled as `a + (b - a) * u` with a draw
  `u ∈ [0, 1)` (CPython computes exactly this expression);
  `random.randint` / `random.gauss` draws are explicit value streams;
  `random.choice` / `random.sample` draws are explicit index inputs.
* Unbounded `while` loops take a fuel argument and return `none` when the
  fuel runs out; a call that returns `none` for every fuel models a loop
  that never terminates.
* Python exceptions (IndexError on `seq[i]`, ZeroDivisionError,
  `random.choice` on an empty sequence) are modelled as `none`.
* Class `Candidate` defines no `__eq__`, so Python `==` on candidates is
  object identity.  Selection operators therefore return positions
  (indices) into the population or into an internally sorted copy of it:
  equal indices mean the same object and distinct indices mean distinct
  objects, a population being a list of pairwise distinct Candidate
  objects.
* In-place mutation of the caller's Candidate (method `calculate_fitness`)
  is modelled twice: the driver algorithms are given in direct value-passing
  style, and a second, heap-instrumented transcription (`Store`-passing,
  with references as store indices) is given to state frame properties.
-/

namespace CodeExamples

/-- Candidate from lines 6-14 of `CodeExamples.py`: a chromosome (ordered
list of numeric genes) plus a fitness value; the constructor default for
fitness is `0.0`. -/
structure Candidate where
  chromosome : List ℚ
  fitness : ℚ
  deriving DecidableEq

/-- Resulting state of a Candidate object after `calculate_fitness`
(lines 16-22): the fitness field is overwritten with the objective value
of the chromosome. -/
def Candidate.calculate_fitness (c : Candidate) (f : List ℚ → ℚ) : Candidate :=
  ⟨c.chromosome, f c.chromosome⟩

/-- Default candidate used to totalize list indexing in the embedding
(indexing is only performed at in-range positions). -/
def defaultCandidate : Candidate := ⟨[], 0⟩

/-- Neighbor chromosome generation shared by the three drivers
(lines 68-72, 134-139 and 226-228): copy the chromosome and overwrite the
gene at the drawn index with the drawn value.  The draw `d` is the pair
`(index_to_modify, new_gene_value)`. -/
def neighborChromosome (c : Candidate) (d : ℕ × ℚ) : List ℚ :=
  c.chromosome.set d.1 d.2

/-- One iteration of the `hill_climb` loop (lines 66-80): build the
neighbor, evaluate it, and move only on strict fitness improvement. -/
def hillStep (f : List ℚ → ℚ) (c : Candidate) (d : ℕ × ℚ) : Candidate :=
  let nc := neighborChromosome c d
  let neighbor : Candidate := ⟨nc, f nc⟩
  if neighbor.fitness > c.fitness then neighbor else c

/-- hill_climb (lines 42-82): evaluate the initial candidate, then fold the
per-iteration step over the sequence of random draws (one draw per
iteration; the list length is the iteration budget `max_iterations`). -/
def hill_climb (candidate : Candidate) (f : List ℚ → ℚ)
    (draws : List (ℕ × ℚ)) : Candidate :=
  draws.foldl (hillStep f) (candidate.calculate_fitness f)

/-- One iteration of the `simulated_annealing` loop (lines 133-157), on the
state `(current, best)`.  The draw is `(index, new_gene, accept)` where
`accept` is the outcome of the Metropolis test
`random.random() < math.exp(fitness_diff / current_temperature)` on line
149, supplied as an oracle boolean (temperature and `exp` only influence
that boolean's distribution, never the rest of the state transition, so
quantifying over all boolean streams covers every temperature schedule). -/
def saStep (f : List ℚ → ℚ) (s : Candidate × Candidate)
    (d : ℕ × ℚ × Bool) : Candidate × Candidate :=
  let nc := neighborChromosome s.1 (d.1, d.2.1)
  let neighbor : Candidate := ⟨nc, f nc⟩
  let fitness_diff := neighbor.fitness - s.1.fitness
  if fitness_diff > 0 ∨ d.2.2 = true then
    (neighbor, if neighbor.fitness > s.2.fitness then neighbor else s.2)
  else s

/-- simulated_annealing (lines 100-159): evaluate the initial candidate,
set `best_candidate = candidate`, fold the per-iteration step over the
draw list (whose length is the number of loop iterations performed before
the temperature falls below `min_temperature`), and return `best`. -/
def simulated_annealing (candidate : Candidate) (f : List ℚ → ℚ)
    (draws : List (ℕ × ℚ × Bool)) : Candidate :=
  let c1 := candidate.calculate_fitness f
  (draws.foldl (saStep f) (c1, c1)).2

/-- States visited by a fold: the start state followed by the state after
each step. -/
def runStates {S D : Type} (step : S → D → S) : S → List D → List S
  | s, [] => [s]
  | s, d :: ds => s :: runStates step (step s d) ds

/-- Tabu-list push (lines 215 and 251): `deque(maxlen=size).append`.
When `size = 0` the deque discards every append; when full, the oldest
(leftmost) entry is evicted; otherwise the entry is appended on the
right. -/
def pushTabu (size : ℕ) (q : List (List ℚ)) (x : List ℚ) : List (List ℚ) :=
  if size = 0 then q
  else if q.length = size then q.drop 1 ++ [x]
  else q ++ [x]

/-- Loop body of the best-neighbor scan of `tabu_search` (lines 239-242):
a neighbor is considered only when it is not tabu or meets the aspiration
criterion `neighbor.fitness > best_candidate.fitness`, and it replaces the
running best neighbor only on strictly greater fitness. -/
def bnStep (tabu : List (List ℚ)) (bestFitness : ℚ) (bn : Option Candidate)
    (nb : Candidate) : Option Candidate :=
  if nb.chromosome ∉ tabu ∨ nb.fitness > bestFitness then
    match bn with
    | none => some nb
    | some b => if nb.fitness > b.fitness then some nb else some b
  else bn

/-- Best-neighbor scan of `tabu_search` (lines 238-242): fold over the
neighborhood starting from `best_neighbor = None`. -/
def bestNeighborSel (nbs : List Candidate) (tabu : List (List ℚ))
    (bestFitness : ℚ) : Option Candidate :=
  nbs.foldl (bnStep tabu bestFitness) none

/-- State of one `tabu_search` run: the working candidate, the best
candidate found so far, and the tabu memory (a list of chromosome
signatures, oldest first). -/
structure TabuState where
  current : Candidate
  best : Candidate
  tabu : List (List ℚ)
  deriving DecidableEq

/-- One iteration of the `tabu_search` loop (lines 221-251): generate the
neighborhood from the iteration's draw list (one `(index, value)` pair per
neighbor; the list length is `neighborhood_size`), pick the best admissible
neighbor, move only on strict improvement over `current`, update `best` on
strict improvement over it, and push the (possibly updated) current
chromosome onto the tabu list. -/
def tabu_iteration (f : List ℚ → ℚ) (size : ℕ) (s : TabuState)
    (dr : List (ℕ × ℚ)) : TabuState :=
  let neighborhood := dr.map
    (fun d => let nc := neighborChromosome s.current d; (⟨nc, f nc⟩ : Candidate))
  match bestNeighborSel neighborhood s.tabu s.best.fitness with
  | some bn =>
    if bn.fitness > s.current.fitness then
      { current := bn
        best := if bn.fitness > s.best.fitness then bn else s.best
        tabu := pushTabu size s.tabu bn.chromosome }
    else { s with tabu := pushTabu size s.tabu s.current.chromosome }
  | none => { s with tabu := pushTabu size s.tabu s.current.chromosome }

/-- Initial state of `tabu_search` (lines 207-218): evaluate the initial
candidate, set current and best to it, and push its chromosome onto the
(empty) tabu list. -/
def tabuInit (init : Candidate) (f : List ℚ → ℚ) (size : ℕ) : TabuState :=
  let c1 := init.calculate_fitness f
  ⟨c1, c1, pushTabu size [] c1.chromosome⟩

/-- tabu_search (lines 178-253): fold the per-iteration step over the list
of iteration draws (one entry per iteration; the list length is
`max_iterations`) and return the best candidate. -/
def tabu_search (init : Candidate) (f : List ℚ → ℚ) (size : ℕ)
    (iters : List (List (ℕ × ℚ))) : Candidate :=
  (iters.foldl (tabu_iteration f size) (tabuInit init f size)).best

/-- End-of-iteration states of a `tabu_search` run: the initial state
(after lines 207-218) followed by the state at the end of each loop
iteration. -/
def tabuStates (init : Candidate) (f : List ℚ → ℚ) (size : ℕ)
    (iters : List (List (ℕ × ℚ))) : List TabuState :=
  runStates (tabu_iteration f size) (tabuInit init f size) iters

/-- Total fitness of a generation (lines 280 and 358). -/
def totalFitness (generation : List Candidate) : ℚ :=
  (generation.map Candidate.fitness).sum

/-- Cumulative walk of `select_one` inside `roulette_wheel_selection`
(lines 283-289), returning the index of the first candidate whose
cumulative fitness strictly exceeds the pick, and `none` when the loop
falls through (Python then returns `None` implicitly). -/
def selectOneGo : List Candidate → ℕ → ℚ → ℚ → Option ℕ
  | [], _, _, _ => none
  | c :: rest, i, current, pick =>
    if current + c.fitness > pick then some i
    else selectOneGo rest (i + 1) (current + c.fitness) pick

/-- select_one of `roulette_wheel_selection` (lines 283-289). -/
def select_one (generation : List Candidate) (pick : ℚ) : Option ℕ :=
  selectOneGo generation 0 0 pick

/-- Re-sampling loop of `roulette_wheel_selection` (lines 293-295):
`while parent2 == parent1: parent2 = select_one()`.  The comparison is
Python object identity (Candidate defines no `__eq__`), i.e. equality of
the returned `Option ℕ` values (`None == None` is true).  `u k` is the
`random()` draw of the `k`-th `select_one` call and `fuel` bounds the
number of re-samples; `none` for every fuel means the loop diverges. -/
def rouletteResample (generation : List Candidate) (u : ℕ → ℚ)
    (p1 : Option ℕ) : ℕ → ℕ → Option (Option ℕ × Option ℕ)
  | _, 0 => none
  | k, fuel + 1 =>
    let p2 := select_one generation (totalFitness generation * u k)
    if p2 = p1 then rouletteResample generation u p1 (k + 1) fuel
    else some (p1, p2)

/-- roulette_wheel_selection (lines 272-297).  Each pick is
`random.uniform(0, total_fitness) = total_fitness * u k`. -/
def roulette_wheel_selection (generation : List Candidate) (u : ℕ → ℚ)
    (fuel : ℕ) : Option (Option ℕ × Option ℕ) :=
  let p1 := select_one generation (totalFitness generation * u 0)
  rouletteResample generation u p1 1 fuel

/-- Ranked generation of `rank_based_selection` (line 308):
`sorted(generation, key=lambda c: c.fitness)` (a stable ascending sort). -/
def ranked_generation (generation : List Candidate) : List Candidate :=
  generation.mergeSort (fun a b => a.fitness ≤ b.fitness)

/-- total_ranks of `rank_based_selection` (line 311):
`sum(range(1, len(ranked_generation) + 1))`. -/
def total_ranks (generation : List Candidate) : ℕ :=
  ((List.range generation.length).map (· + 1)).sum

/-- Cumulative rank walk of `select_one` inside `rank_based_selection`
(lines 313-319): weight of position `i` is the 1-based rank `i + 1`. -/
def rankSelGo : List Candidate → ℕ → ℕ → ℚ → Option ℕ
  | [], _, _, _ => none
  | _ :: rest, i, current, pick =>
    if ((current + (i + 1) : ℕ) : ℚ) > pick then some i
    else rankSelGo rest (i + 1) (current + (i + 1)) pick

/-- select_one of `rank_based_selection` (lines 313-319), returning a
position in the ranked generation. -/
def rank_select_one (generation : List Candidate) (pick : ℚ) : Option ℕ :=
  rankSelGo (ranked_generation generation) 0 0 pick

/-- rank_based_selection (lines 300-325): two independent picks, no
distinct-parent enforcement.  Each pick is
`random.uniform(0, total_ranks) = total_ranks * u k`. -/
def rank_based_selection (generation : List Candidate) (u : ℕ → ℚ) :
    Option ℕ × Option ℕ :=
  (rank_select_one generation ((total_ranks generation : ℚ) * u 0),
   rank_select_one generation ((total_ranks generation : ℚ) * u 1))

/-- Tournament winner (lines 337-341): `max(tournament, key=fitness)` over
the sampled positions, keeping the first maximum; `none` models `max` on an
empty sample (Python raises ValueError). -/
def tournamentWinner (generation : List Candidate) (sample : List ℕ) :
    Option ℕ :=
  sample.foldl
    (fun acc i =>
      match acc with
      | none => some i
      | some j =>
        if (generation.getD i defaultCandidate).fitness >
            (generation.getD j defaultCandidate).fitness then some i
        else some j)
    none

/-- tournament_selection (lines 328-347): two independent tournaments; the
sampled positions of each `random.sample(generation, tournament_size)` call
are the explicit inputs `sample1` and `sample2`. -/
def tournament_selection (generation : List Candidate)
    (sample1 sample2 : List ℕ) : Option ℕ × Option ℕ :=
  (tournamentWinner generation sample1, tournamentWinner generation sample2)

/-- Inner pointer-collection loop of `stochastic_universal_sampling`
(lines 368-370): while the cumulative fitness exceeds the current pointer
and fewer than `num_parents` parents are collected, append the current
candidate's position and advance the pointer by the spacing.  The fuel is
`num_parents - len(parents)`, which is exactly the guard
`len(parents) < num_parents`. -/
def susWhile (i : ℕ) (cum sp : ℚ) : ℚ → ℕ → List ℕ × ℚ
  | cp, 0 => ([], cp)
  | cp, fuel + 1 =>
    if cum > cp then
      let r := susWhile i cum sp (cp + sp) fuel
      (i :: r.1, r.2)
    else ([], cp)

/-- Body of the outer candidate walk of `stochastic_universal_sampling`
(lines 366-370), on the state `(parents, current_point,
cumulative_fitness)` and one `(position, candidate)` pair. -/
def susStep (np : ℕ) (sp : ℚ) (st : List ℕ × ℚ × ℚ) (p : ℕ × Candidate) :
    List ℕ × ℚ × ℚ :=
  let cum := st.2.2 + p.2.fitness
  let w := susWhile p.1 cum sp st.2.1 (np - st.1.length)
  (st.1 ++ w.1, w.2, cum)

/-- Outer candidate walk of `stochastic_universal_sampling`
(lines 362-370), over the population with its positions. -/
def susScan (generation : List Candidate) (np : ℕ) (sp s : ℚ) :
    List ℕ × ℚ × ℚ :=
  generation.enum.foldl (susStep np sp) ([], s, 0)

/-- Positions collected by `stochastic_universal_sampling` given the start
point `s`. -/
def susParents (generation : List Candidate) (np : ℕ) (sp s : ℚ) : List ℕ :=
  (susScan generation np sp s).1

/-- stochastic_universal_sampling (lines 350-372) in exact (rational)
arithmetic — the idealization of the float pointer walk in which no
arithmetic operation rounds.  `num_parents = 0` makes line 359 raise
ZeroDivisionError (`none`); the start point is
`random.uniform(0, pointer_spacing) = pointer_spacing * u 0`; the final
`parents[0], parents[1]` raises IndexError (`none`) when fewer than two
parents were collected.  The IEEE-rounding transcription of the same
lines, under which the pointer accumulation can drift, follows below
(`stochastic_universal_sampling_float`). -/
def stochastic_universal_sampling (generation : List Candidate) (np : ℕ)
    (u : ℕ → ℚ) : Option (ℕ × ℕ) :=
  if np = 0 then none
  else
    let sp := totalFitness generation / np
    let start_point := sp * u 0
    let ps := susParents generation np sp start_point
    match ps.get? 0, ps.get? 1 with
    | some a, some b => some (a, b)
    | _, _ => none

/-- Round a rational to the nearest integer, ties to even — the IEEE 754
default rounding applied to a value already scaled into significand
units. -/
def roundNearestEven (x : ℚ) : ℤ :=
  let f := Int.floor x
  let r := x - f
  if r < 1 / 2 then f
  else if 1 / 2 < r then f + 1
  else if f % 2 = 0 then f else f + 1

/-- Round a rational to the nearest IEEE binary64 double: keep a 53-bit
significand, rounding to nearest with ties to even.  Modelled for the
normal, non-overflowing magnitude range the pointer walk exercises
(zero maps to zero; overflow and subnormal behavior are outside the
inputs used here). -/
def roundDouble (q : ℚ) : ℚ :=
  if q = 0 then 0
  else
    let e : ℤ := Int.log 2 |q|
    (roundNearestEven (q / 2 ^ (e - 52)) : ℚ) * 2 ^ (e - 52)

/-- IEEE binary64 addition: the exact sum, rounded. -/
def fladd (x y : ℚ) : ℚ := roundDouble (x + y)

/-- IEEE binary64 multiplication: the exact product, rounded. -/
def flmul (x y : ℚ) : ℚ := roundDouble (x * y)

/-- IEEE binary64 division: the exact quotient, rounded. -/
def fldiv (x y : ℚ) : ℚ := roundDouble (x / y)

/-- Python `sum` over floats: left-to-right float additions starting
from 0. -/
def flsum (l : List ℚ) : ℚ := l.foldl fladd 0

/-- Inner pointer-collection loop of `stochastic_universal_sampling`
(lines 368-370) under IEEE binary64 semantics: identical to `susWhile`
except that `current_point += pointer_spacing` rounds its result. -/
def susWhileF (i : ℕ) (cum sp : ℚ) : ℚ → ℕ → List ℕ × ℚ
  | cp, 0 => ([], cp)
  | cp, fuel + 1 =>
    if cum > cp then
      let r := susWhileF i cum sp (fladd cp sp) fuel
      (i :: r.1, r.2)
    else ([], cp)

/-- Body of the outer candidate walk (lines 366-370) under IEEE binary64
semantics: `cumulative_fitness += candidate.fitness` rounds its result. -/
def susStepF (np : ℕ) (sp : ℚ) (st : List ℕ × ℚ × ℚ) (p : ℕ × Candidate) :
    List ℕ × ℚ × ℚ :=
  let cum := fladd st.2.2 p.2.fitness
  let w := susWhileF p.1 cum sp st.2.1 (np - st.1.length)
  (st.1 ++ w.1, w.2, cum)

/-- Outer candidate walk (lines 362-370) under IEEE binary64 semantics. -/
def susScanF (generation : List Candidate) (np : ℕ) (sp s : ℚ) :
    List ℕ × ℚ × ℚ :=
  generation.enum.foldl (susStepF np sp) ([], s, 0)

/-- Positions collected by the IEEE binary64 pointer walk. -/
def susParentsF (generation : List Candidate) (np : ℕ) (sp s : ℚ) :
    List ℕ :=
  (susScanF generation np sp s).1

/-- stochastic_universal_sampling (lines 350-372) under IEEE binary64
semantics: every arithmetic operation of the source (the fitness sum of
line 358, the spacing division of line 359, the
`uniform(0, pointer_spacing) = pointer_spacing * random()` product of
line 360, and the two running additions of lines 367 and 370) rounds its
exact result to the nearest double.  `u 0` is the `random()` draw, a
double in `[0, 1)`. -/
def stochastic_universal_sampling_float (generation : List Candidate)
    (np : ℕ) (u : ℕ → ℚ) : Option (ℕ × ℕ) :=
  if np = 0 then none
  else
    let total := flsum (generation.map Candidate.fitness)
    let sp := fldiv total np
    let start_point := flmul sp (u 0)
    let ps := susParentsF generation np sp start_point
    match ps.get? 0, ps.get? 1 with
    | some a, some b => some (a, b)
    | _, _ => none

/-- Descending stable sort shared by truncation and elitism selection
(lines 384 and 408): `sorted(generation, key=fitness, reverse=True)`. -/
def sortedDescending (generation : List Candidate) : List Candidate :=
  generation.mergeSort (fun a b => b.fitness ≤ a.fitness)

/-- Truncated group of `truncation_selection` (lines 384-388):
`int(truncation_percentage * len(generation))` top candidates (for the
nonnegative sizes produced here, Python `int` truncation and `floor`
agree; negative products give an empty prefix either way). -/
def truncationGroup (generation : List Candidate)
    (truncation_percentage : ℚ) : List Candidate :=
  (sortedDescending generation).take
    (Int.floor (truncation_percentage * generation.length)).toNat

/-- Re-sampling loop of `truncation_selection` (lines 393-394), comparing
by object identity, i.e. by position in the truncated group; `k i` is the
`i`-th `random.choice` draw, reduced modulo the group size (every valid
choice outcome is some `k i % size`, and quantifying over all `k` covers
them all). -/
def truncResample (size : ℕ) (k : ℕ → ℕ) (p1 : ℕ) : ℕ → ℕ → Option (ℕ × ℕ)
  | _, 0 => none
  | i, fuel + 1 =>
    let p2 := k i % size
    if p2 = p1 then truncResample size k p1 (i + 1) fuel
    else some (p1, p2)

/-- truncation_selection (lines 375-396), returning positions in the
truncated group; `random.choice` on an empty group raises IndexError
(`none`). -/
def truncation_selection (generation : List Candidate)
    (truncation_percentage : ℚ) (k : ℕ → ℕ) (fuel : ℕ) : Option (ℕ × ℕ) :=
  let grp := truncationGroup generation truncation_percentage
  if grp.length = 0 then none
  else truncResample grp.length k (k 0 % grp.length) 1 fuel

/-- Elite group of `elitism_selection` (lines 408-412):
`max(1, int(elite_fraction * len(generation)))` top candidates. -/
def eliteGroup (generation : List Candidate) (elite_fraction : ℚ) :
    List Candidate :=
  (sortedDescending generation).take
    (max 1 (Int.floor (elite_fraction * generation.length)).toNat)

/-- elitism_selection (lines 399-418), returning positions in the elite
group; the two `random.choice` draws are independent and no distinctness is
enforced.  An empty generation makes the elite group empty and
`random.choice` raise IndexError (`none`). -/
def elitism_selection (generation : List Candidate) (elite_fraction : ℚ)
    (k : ℕ → ℕ) : Option (ℕ × ℕ) :=
  let elite := eliteGroup generation elite_fraction
  if elite.length = 0 then none
  else some (k 0 % elite.length, k 1 % elite.length)

/-- Python slice `l[a:b]` for natural bounds (clamping beyond the list
length, empty when `b ≤ a`). -/
def pySlice (l : List ℚ) (a b : ℕ) : List ℚ :=
  (l.drop a).take (b - a)

/-- Segment-copying loop of `n_point_crossover` (lines 433-444) over
`crossover_points + [length]`, alternating the source parent starting with
`parent1`. -/
def nPointGo (p1 p2 : List ℚ) : ℕ → Bool → List ℕ → List ℚ
  | _, _, [] => []
  | prev, swap, point :: rest =>
    (if swap then pySlice p2 prev point else pySlice p1 prev point) ++
      nPointGo p1 p2 point (!swap) rest

/-- n_point_crossover (lines 421-446); `crossover_points` is the sorted
random sample of cut positions from `range(1, length)`. -/
def n_point_crossover (parent1 parent2 : Candidate)
    (crossover_points : List ℕ) : Candidate :=
  ⟨nPointGo parent1.chromosome parent2.chromosome 0 false
      (crossover_points ++ [parent1.chromosome.length]), 0⟩

/-- uniform_crossover (lines 449-460): per gene pair,
`random.choice([gene1, gene2])`; `coin i = true` picks parent1's gene. -/
def uniform_crossover (parent1 parent2 : Candidate) (coin : ℕ → Bool) :
    Candidate :=
  ⟨(parent1.chromosome.zip parent2.chromosome).enum.map
      (fun p => if coin p.1 then p.2.1 else p.2.2), 0⟩

/-- arithmetic_crossover (lines 463-475). -/
def arithmetic_crossover (parent1 parent2 : Candidate) (alpha : ℚ) :
    Candidate :=
  ⟨(parent1.chromosome.zip parent2.chromosome).map
      (fun p => alpha * p.1 + (1 - alpha) * p.2), 0⟩

/-- blend_crossover (lines 478-494): per gene pair, a
`random.uniform(lower_bound, upper_bound)` draw, modelled as
`lower_bound + (upper_bound - lower_bound) * u i`. -/
def blend_crossover (parent1 parent2 : Candidate) (alpha : ℚ)
    (u : ℕ → ℚ) : Candidate :=
  ⟨(parent1.chromosome.zip parent2.chromosome).enum.map
      (fun p =>
        let d := |p.2.1 - p.2.2|
        let lower_bound := min p.2.1 p.2.2 - alpha * d
        let upper_bound := max p.2.1 p.2.2 + alpha * d
        lower_bound + (upper_bound - lower_bound) * u p.1), 0⟩

/-- cut_and_splice_crossover (lines 497-510). -/
def cut_and_splice_crossover (parent1 parent2 : Candidate)
    (cut_point1 cut_point2 : ℕ) : Candidate :=
  ⟨parent1.chromosome.take cut_point1 ++ parent2.chromosome.drop cut_point2, 0⟩

/-- Segment `parent1.chromosome[start:stop]` copied verbatim by
`order_crossover` (line 526). -/
def oxSeg (p1 : List ℚ) (start stop : ℕ) : List ℚ :=
  pySlice p1 start stop

/-- Offspring template of `order_crossover` (lines 525-526):
`[None] * length` with the parent1 segment written into positions
`start..stop`. -/
def oxTemplate (p1 : List ℚ) (start stop : ℕ) : List (Option ℚ) :=
  List.replicate start none ++ (oxSeg p1 start stop).map some ++
    List.replicate (p1.length - stop) none

/-- parent2_genes of `order_crossover` (line 529): parent2's genes that are
not already present in the template.  A gene is `in offspring_chromosome`
exactly when it equals one of the copied segment values (`gene == None` is
false in Python for the gene values at hand). -/
def oxFree (p1 p2 : List ℚ) (start stop : ℕ) : List ℚ :=
  p2.filter (fun g => decide (g ∉ oxSeg p1 start stop))

/-- Filling loop of `order_crossover` (lines 531-535): walk the template,
consuming the next free gene at each `None` slot; consuming past the end of
the free list models the IndexError Python raises at `parent2_genes[idx]`. -/
def oxFill : List (Option ℚ) → List ℚ → Option (List ℚ)
  | [], _ => some []
  | none :: _, [] => none
  | none :: rest, g :: gs => (oxFill rest gs).map (g :: ·)
  | some x :: rest, gs => (oxFill rest gs).map (x :: ·)

/-- order_crossover (lines 513-537); `start < stop` are the sorted sampled
segment bounds from `range(length)`. -/
def order_crossover (parent1 parent2 : Candidate) (start stop : ℕ) :
    Option Candidate :=
  (oxFill (oxTemplate parent1.chromosome start stop)
      (oxFree parent1.chromosome parent2.chromosome start stop)).map
    (fun l => ⟨l, 0⟩)

/-- uniform_mutation (lines 540-558): per gene, with probability
`mutation_probability` (the draw `u i` is `random.random()`), replace the
gene by the freshly drawn value `newGene i` (`random.randint(0, 100)`). -/
def uniform_mutation (candidate : Candidate) (mutation_probability : ℚ)
    (u newGene : ℕ → ℚ) : Candidate :=
  ⟨candidate.chromosome.enum.map
      (fun p => if u p.1 < mutation_probability then newGene p.1 else p.2), 0⟩

/-- multi_point_mutation (lines 561-578): overwrite the sampled positions
(`mutation_indices`) with fresh draws. -/
def multi_point_mutation (candidate : Candidate) (mutation_indices : List ℕ)
    (newGene : ℕ → ℚ) : Candidate :=
  ⟨mutation_indices.foldl (fun ch idx => ch.set idx (newGene idx))
      candidate.chromosome, 0⟩

/-- gaussian_mutation (lines 581-593): add a per-gene noise draw
(`random.gauss(mean, stddev)`) to every gene. -/
def gaussian_mutation (candidate : Candidate) (noise : ℕ → ℚ) : Candidate :=
  ⟨candidate.chromosome.enum.map (fun p => p.2 + noise p.1), 0⟩

/-- boundary_mutation (lines 596-614): set one random gene to the lower or
upper boundary (`toLower` is the outcome of `random.random() < 0.5`). -/
def boundary_mutation (candidate : Candidate) (lower_bound upper_bound : ℚ)
    (mutation_index : ℕ) (toLower : Bool) : Candidate :=
  ⟨candidate.chromosome.set mutation_index
      (if toLower then lower_bound else upper_bound), 0⟩

/-- swap_mutation (lines 617-630): exchange the genes at the two sampled
positions (Python's simultaneous tuple assignment). -/
def swap_mutation (candidate : Candidate) (idx1 idx2 : ℕ) : Candidate :=
  let g1 := candidate.chromosome.getD idx1 0
  let g2 := candidate.chromosome.getD idx2 0
  ⟨(candidate.chromosome.set idx1 g2).set idx2 g1, 0⟩

/-- scramble_mutation (lines 633-650): replace the slice `[start:stop]` by
its shuffled copy `scrambled_part` (the `random.shuffle` outcome, a
permutation of the slice, is the explicit input). -/
def scramble_mutation (candidate : Candidate) (start stop : ℕ)
    (scrambled_part : List ℚ) : Candidate :=
  ⟨candidate.chromosome.take start ++ scrambled_part ++
      candidate.chromosome.drop stop, 0⟩

/-- inversion_mutation (lines 653-668): reverse the slice `[start:stop]`. -/
def inversion_mutation (candidate : Candidate) (start stop : ℕ) : Candidate :=
  ⟨candidate.chromosome.take start ++
      (pySlice candidate.chromosome start stop).reverse ++
      candidate.chromosome.drop stop, 0⟩

/-- non_uniform_mutation (lines 671-692): per gene, with probability
`mutation_probability`, add a signed perturbation whose magnitude is the
draw `delta i` (`random.uniform(0, 1)`) scaled by
`1 - generation / max_generations`; `sign i` is the outcome of
`random.choice([-1, 1])` (`true` for `1`). -/
def non_uniform_mutation (candidate : Candidate)
    (generation max_generations : ℚ) (mutation_probability : ℚ)
    (u delta : ℕ → ℚ) (sign : ℕ → Bool) : Candidate :=
  ⟨candidate.chromosome.enum.map
      (fun p =>
        if u p.1 < mutation_probability then
          p.2 + (if sign p.1 then 1 else -1) *
            (delta p.1 * (1 - generation / max_generations))
        else p.2), 0⟩

/-- adaptive_mutation (lines 695-721): an empty population makes line 706
raise ZeroDivisionError (`none`); otherwise the base mutation probability
is doubled below the stagnation threshold and a uniform mutation is
applied. -/
def adaptive_mutation (candidate : Candidate) (population : List Candidate)
    (improvement_threshold mutation_probability : ℚ)
    (u newGene : ℕ → ℚ) : Option Candidate :=
  if population.length = 0 then none
  else
    let avg_fitness := totalFitness population / population.length
    let p :=
      if candidate.fitness < avg_fitness * (1 + improvement_threshold) then
        mutation_probability * 2
      else mutation_probability
    some ⟨candidate.chromosome.enum.map
        (fun q => if u q.1 < p then newGene q.1 else q.2), 0⟩

/-! Heap-instrumented transcription of the three drivers, used to state
frame (in-place effect) properties.  A `Store` is the list of all
Candidate objects allocated so far; a Python reference is an index into
it.  `Candidate(chromosome)` allocates at the end of the store, and
`calculate_fitness` updates the referenced object in place. -/

/-- Heap of Candidate objects; references are store indices. -/
abbrev Store := List Candidate

/-- Dereference a candidate object (only used at in-range references). -/
def heapGet (σ : Store) (r : ℕ) : Candidate :=
  σ.getD r defaultCandidate

/-- In-place `calculate_fitness` on the object at reference `r`. -/
def calcFitnessAt (f : List ℚ → ℚ) (σ : Store) (r : ℕ) : Store :=
  σ.set r ((heapGet σ r).calculate_fitness f)

/-- Allocation `Candidate(chromosome)`: append a fresh object with the
constructor-default fitness `0.0` and return its reference. -/
def allocCandidate (σ : Store) (chrom : List ℚ) : Store × ℕ :=
  (σ ++ [⟨chrom, 0⟩], σ.length)

/-- Loop of `hill_climb` (lines 66-80) over the store: each iteration
allocates a fresh neighbor object, evaluates it in place, and possibly
rebinds the local variable `candidate` to it; the caller's object is never
touched again. -/
def hcLoopHeap (f : List ℚ → ℚ) : Store → ℕ → List (ℕ × ℚ) → Store × ℕ
  | σ, cur, [] => (σ, cur)
  | σ, cur, d :: ds =>
    let nc := neighborChromosome (heapGet σ cur) d
    let a := allocCandidate σ nc
    let σ2 := calcFitnessAt f a.1 a.2
    if (heapGet σ2 a.2).fitness > (heapGet σ2 cur).fitness then
      hcLoopHeap f σ2 a.2 ds
    else hcLoopHeap f σ2 cur ds

/-- hill_climb (lines 42-82) over the store: line 64 evaluates the caller's
object in place, then the loop runs; the returned reference is the final
`candidate`. -/
def hill_climb_heap (σ : Store) (r : ℕ) (f : List ℚ → ℚ)
    (draws : List (ℕ × ℚ)) : Store × ℕ :=
  hcLoopHeap f (calcFitnessAt f σ r) r draws

/-- Loop of `simulated_annealing` (lines 133-157) over the store, carrying
the references of `candidate` and `best_candidate`. -/
def saLoopHeap (f : List ℚ → ℚ) :
    Store → ℕ → ℕ → List (ℕ × ℚ × Bool) → Store × ℕ
  | σ, _, best, [] => (σ, best)
  | σ, cur, best, d :: ds =>
    let nc := neighborChromosome (heapGet σ cur) (d.1, d.2.1)
    let a := allocCandidate σ nc
    let σ2 := calcFitnessAt f a.1 a.2
    if (heapGet σ2 a.2).fitness - (heapGet σ2 cur).fitness > 0 ∨
        d.2.2 = true then
      saLoopHeap f σ2 a.2
        (if (heapGet σ2 a.2).fitness > (heapGet σ2 best).fitness then a.2
         else best) ds
    else saLoopHeap f σ2 cur best ds

/-- simulated_annealing (lines 100-159) over the store. -/
def simulated_annealing_heap (σ : Store) (r : ℕ) (f : List ℚ → ℚ)
    (draws : List (ℕ × ℚ × Bool)) : Store × ℕ :=
  saLoopHeap f (calcFitnessAt f σ r) r r draws

/-- Neighborhood generation of `tabu_search` (lines 223-235) over the
store: allocate and evaluate one fresh object per draw, collecting the
references in order. -/
def tabuNbrsHeap (f : List ℚ → ℚ) :
    Store → ℕ → List (ℕ × ℚ) → Store × List ℕ
  | σ, _, [] => (σ, [])
  | σ, cur, d :: ds =>
    let nc := neighborChromosome (heapGet σ cur) d
    let a := allocCandidate σ nc
    let σ2 := calcFitnessAt f a.1 a.2
    let rest := tabuNbrsHeap f σ2 cur ds
    (rest.1, a.2 :: rest.2)

/-- Best-neighbor scan (lines 238-242) over the store. -/
def bestNeighborHeap (σ : Store) (tabu : List (List ℚ)) (bestFitness : ℚ)
    (refs : List ℕ) : Option ℕ :=
  refs.foldl
    (fun bn nr =>
      if (heapGet σ nr).chromosome ∉ tabu ∨
          (heapGet σ nr).fitness > bestFitness then
        match bn with
        | none => some nr
        | some b =>
          if (heapGet σ nr).fitness > (heapGet σ b).fitness then some nr
          else some b
      else bn)
    none

/-- Loop of `tabu_search` (lines 221-251) over the store. -/
def tabuLoopHeap (f : List ℚ → ℚ) (size : ℕ) :
    Store → ℕ → ℕ → List (List ℚ) → List (List (ℕ × ℚ)) → Store × ℕ
  | σ, _, best, _, [] => (σ, best)
  | σ, cur, best, tabu, dr :: iters =>
    let g := tabuNbrsHeap f σ cur dr
    match bestNeighborHeap g.1 tabu (heapGet g.1 best).fitness g.2 with
    | some b =>
      if (heapGet g.1 b).fitness > (heapGet g.1 cur).fitness then
        tabuLoopHeap f size g.1 b
          (if (heapGet g.1 b).fitness > (heapGet g.1 best).fitness then b
           else best)
          (pushTabu size tabu (heapGet g.1 b).chromosome) iters
      else
        tabuLoopHeap f size g.1 cur best
          (pushTabu size tabu (heapGet g.1 cur).chromosome) iters
    | none =>
      tabuLoopHeap f size g.1 cur best
        (pushTabu size tabu (heapGet g.1 cur).chromosome) iters

/-- tabu_search (lines 178-253) over the store. -/
def tabu_search_heap (σ : Store) (r : ℕ) (f : List ℚ → ℚ) (size : ℕ)
    (iters : List (List (ℕ × ℚ))) : Store × ℕ :=
  let σ1 := calcFitnessAt f σ r
  tabuLoopHeap f size σ1 r r (pushTabu size [] (heapGet σ1 r).chromosome)
    iters

/-! Helper lemmas and claim theorems. -/

lemma hillStep_fitness_le (f : List ℚ → ℚ) (c : Candidate) (d : ℕ × ℚ) :
    c.fitness ≤ (hillStep f c d).fitness := by
  simp only [hillStep]
  split
  · exact le_of_lt (by assumption)
  · exact le_rfl

lemma foldl_hillStep_fitness_le (f : List ℚ → ℚ) (ds : List (ℕ × ℚ)) :
    ∀ c : Candidate, c.fitness ≤ (ds.foldl (hillStep f) c).fitness := by
  induction ds with
  | nil => intro c; exact le_rfl
  | cons d ds ih =>
    intro c
    exact le_trans (hillStep_fitness_le f c d) (ih (hillStep f c d))

/-- C2.  For every initial Candidate, objective function and sequence of
random draws (whose length is the iteration budget), `hill_climb` returns a
Candidate whose fitness is at least the initial Candidate's fitness (the
value the objective assigns to its chromosome, which is what line 64 stores
into the input before the search); and one loop iteration either leaves the
current candidate unchanged or strictly increases its fitness, so ties
never move. -/
theorem c2_hill_climb_monotone :
    ∀ (candidate : Candidate) (f : List ℚ → ℚ) (draws : List (ℕ × ℚ)),
      (f candidate.chromosome ≤ (hill_climb candidate f draws).fitness) ∧
      ∀ (c : Candidate) (d : ℕ × ℚ),
        hillStep f c d = c ∨ c.fitness < (hillStep f c d).fitness := by
  intro candidate f draws
  constructor
  · exact foldl_hillStep_fitness_le f draws (candidate.calculate_fitness f)
  · intro c d
    simp only [hillStep]
    split
    · exact Or.inr (by assumption)
    · exact Or.inl rfl

lemma saStep_best_mono (f : List ℚ → ℚ) (s : Candidate × Candidate)
    (d : ℕ × ℚ × Bool) : s.2.fitness ≤ (saStep f s d).2.fitness := by
  simp only [saStep]
  split
  · split
    · exact le_of_lt (by assumption)
    · exact le_rfl
  · exact le_rfl

lemma saStep_inv (f : List ℚ → ℚ) (s : Candidate × Candidate)
    (d : ℕ × ℚ × Bool) (hs : s.1.fitness ≤ s.2.fitness) :
    (saStep f s d).1.fitness ≤ (saStep f s d).2.fitness := by
  simp only [saStep]
  split
  · split
    · exact le_rfl
    · exact le_of_not_lt (by assumption)
  · exact hs

lemma foldl_saStep_best_mono (f : List ℚ → ℚ) (ds : List (ℕ × ℚ × Bool)) :
    ∀ s : Candidate × Candidate,
      s.2.fitness ≤ (ds.foldl (saStep f) s).2.fitness := by
  induction ds with
  | nil => intro s; exact le_rfl
  | cons d ds ih =>
    intro s
    exact le_trans (saStep_best_mono f s d) (ih (saStep f s d))

lemma mem_runStates_saStep (f : List ℚ → ℚ) (ds : List (ℕ × ℚ × Bool)) :
    ∀ s : Candidate × Candidate, s.1.fitness ≤ s.2.fitness →
      ∀ t ∈ runStates (saStep f) s ds,
        t.1.fitness ≤ (ds.foldl (saStep f) s).2.fitness := by
  induction ds with
  | nil =>
    intro s hs t ht
    simp only [runStates, List.mem_singleton] at ht
    subst ht
    exact hs
  | cons d ds ih =>
    intro s hs t ht
    simp only [runStates, List.mem_cons] at ht
    rcases ht with h | h
    · subst h
      calc t.1.fitness ≤ t.2.fitness := hs
        _ ≤ (saStep f t d).2.fitness := saStep_best_mono f t d
        _ ≤ (ds.foldl (saStep f) (saStep f t d)).2.fitness :=
            foldl_saStep_best_mono f ds (saStep f t d)
    · exact ih (saStep f s d) (saStep_inv f s d hs) t h

/-- C3.  The candidate returned by `simulated_annealing` is the separately
tracked best (the second component of the folded state); its fitness is at
least the fitness of every current candidate visited during the run; and
the tracked best's fitness is monotonically non-decreasing across
iterations (truncating the run after one more iteration never decreases the
returned fitness). -/
theorem c3_simulated_annealing_best :
    ∀ (candidate : Candidate) (f : List ℚ → ℚ)
      (draws : List (ℕ × ℚ × Bool)),
      simulated_annealing candidate f draws =
        (draws.foldl (saStep f)
          (candidate.calculate_fitness f, candidate.calculate_fitness f)).2 ∧
      (∀ t ∈ runStates (saStep f)
          (candidate.calculate_fitness f, candidate.calculate_fitness f)
          draws,
        t.1.fitness ≤ (simulated_annealing candidate f draws).fitness) ∧
      ∀ n : ℕ,
        (simulated_annealing candidate f (draws.take n)).fitness ≤
          (simulated_annealing candidate f (draws.take (n + 1))).fitness := by
  intro candidate f draws
  refine ⟨rfl, ?_, ?_⟩
  · intro t ht
    exact mem_runStates_saStep f draws _ le_rfl t ht
  · intro n
    show (List.foldl (saStep f) _ (draws.take n)).2.fitness ≤
      (List.foldl (saStep f) _ (draws.take (n + 1))).2.fitness
    rw [List.take_succ]
    rcases h : draws[n]? with _ | d
    · simp
    · simp only [List.foldl_append, Option.toList_some, List.foldl_cons,
        List.foldl_nil]
      exact saStep_best_mono f _ d

/-- C3 witness: a concrete one-iteration run where the visited initial
current has fitness 1 and the returned best has fitness 2. -/
theorem c3_simulated_annealing_best_witness :
    ((⟨[1], 1⟩, (⟨[1], 1⟩ : Candidate)) : Candidate × Candidate).1.fitness ≤
      (simulated_annealing ⟨[1], 0⟩ (fun l => l.sum)
        [(0, 2, false)]).fitness := by
  refine (c3_simulated_annealing_best ⟨[1], 0⟩ (fun l => l.sum)
    [(0, 2, false)]).2.1 _ ?_
  simp [runStates, Candidate.calculate_fitness]

lemma mem_pushTabu_self (size : ℕ) (q : List (List ℚ)) (x : List ℚ)
    (h1 : 1 ≤ size) : x ∈ pushTabu size q x := by
  unfold pushTabu
  rw [if_neg (by omega)]
  split <;> simp

lemma length_pushTabu_le (size : ℕ) (q : List (List ℚ)) (x : List ℚ)
    (h1 : 1 ≤ size) (hq : q.length ≤ size) :
    (pushTabu size q x).length ≤ size := by
  unfold pushTabu
  rw [if_neg (by omega)]
  split
  · simp only [List.length_append, List.length_drop, List.length_cons,
      List.length_nil]
    omega
  · simp only [List.length_append, List.length_cons, List.length_nil]
    omega

lemma pushTabu_full (size : ℕ) (q : List (List ℚ)) (x : List ℚ)
    (h1 : 1 ≤ size) (hq : q.length = size) :
    pushTabu size q x = q.drop 1 ++ [x] := by
  unfold pushTabu
  rw [if_neg (by omega), if_pos hq]

lemma mem_runStates_inv {S D : Type} (step : S → D → S) (P : S → Prop)
    (hstep : ∀ s d, P s → P (step s d)) :
    ∀ (ds : List D) (s : S), P s → ∀ t ∈ runStates step s ds, P t := by
  intro ds
  induction ds with
  | nil =>
    intro s hs t ht
    simp only [runStates, List.mem_singleton] at ht
    subst ht
    exact hs
  | cons d ds ih =>
    intro s hs t ht
    simp only [runStates, List.mem_cons] at ht
    rcases ht with h | h
    · subst h; exact hs
    · exact ih (step s d) (hstep s d hs) t h

lemma tabu_iteration_inv (f : List ℚ → ℚ) (size : ℕ) (h1 : 1 ≤ size)
    (s : TabuState) (dr : List (ℕ × ℚ))
    (hs : s.current.chromosome ∈ s.tabu ∧ s.tabu.length ≤ size) :
    (tabu_iteration f size s dr).current.chromosome ∈
        (tabu_iteration f size s dr).tabu ∧
      (tabu_iteration f size s dr).tabu.length ≤ size := by
  unfold tabu_iteration
  dsimp only
  split
  · split
    · exact ⟨mem_pushTabu_self _ _ _ h1, length_pushTabu_le _ _ _ h1 hs.2⟩
    · exact ⟨mem_pushTabu_self _ _ _ h1, length_pushTabu_le _ _ _ h1 hs.2⟩
  · exact ⟨mem_pushTabu_self _ _ _ h1, length_pushTabu_le _ _ _ h1 hs.2⟩

lemma bnStep_aspiration (tabu : List (List ℚ)) (bf : ℚ) :
    ∀ (nbs : List Candidate) (acc : Option Candidate),
      (∀ b : Candidate, acc = some b → b.chromosome ∈ tabu → bf < b.fitness) →
      ∀ bn : Candidate, nbs.foldl (bnStep tabu bf) acc = some bn →
        bn.chromosome ∈ tabu → bf < bn.fitness := by
  intro nbs
  induction nbs with
  | nil =>
    intro acc hacc bn hfold
    exact hacc bn hfold
  | cons nb nbs ih =>
    intro acc hacc bn hfold
    refine ih (bnStep tabu bf acc nb) ?_ bn hfold
    intro b hb hbtabu
    unfold bnStep at hb
    split at hb
    · rename_i hadm
      split at hb
      · cases hb
        rcases hadm with hnb | hnb
        · exact absurd hbtabu hnb
        · exact hnb
      · split at hb
        · cases hb
          rcases hadm with hnb | hnb
          · exact absurd hbtabu hnb
          · exact hnb
        · cases hb
          exact hacc _ rfl hbtabu
    · exact hacc b hb hbtabu

lemma bestNeighborSel_aspiration (nbs : List Candidate)
    (tabu : List (List ℚ)) (bf : ℚ) (bn : Candidate)
    (hsel : bestNeighborSel nbs tabu bf = some bn)
    (htabu : bn.chromosome ∈ tabu) : bf < bn.fitness :=
  bnStep_aspiration tabu bf nbs none (by intro b hb; cases hb) bn hsel htabu

/-- C4 counterexample.  With `tabu_list_size = 0` (a legal argument:
`deque(maxlen=0)` silently discards every append), after one full
iteration the current candidate's chromosome is not present in tabu
memory, refuting the claim as stated: here the run on initial candidate
`[1]` with a constant objective and one iteration with an empty
neighborhood ends iteration 1 in a state whose tabu memory is empty. -/
theorem c4_tabu_size_zero_counterexample :
    tabuStates ⟨[1], 0⟩ (fun _ => 0) 0 [[]] =
        [⟨⟨[1], 0⟩, ⟨[1], 0⟩, []⟩, ⟨⟨[1], 0⟩, ⟨[1], 0⟩, []⟩] ∧
      (⟨⟨[1], 0⟩, ⟨[1], 0⟩, []⟩ : TabuState).current.chromosome ∉
        (⟨⟨[1], 0⟩, ⟨[1], 0⟩, []⟩ : TabuState).tabu := by
  constructor
  · rfl
  · intro h
    cases h

/-- C4 (amended: provided `tabu_list_size ≥ 1`).  At the end of every
iteration of `tabu_search` (including initialization) the current
candidate's chromosome is present in tabu memory, which is pushed every
iteration whether or not a move occurred; tabu memory is a bounded FIFO
queue holding at most `tabu_list_size` entries, appending on the right and
evicting the oldest entry when full; and a neighbor whose chromosome is in
tabu memory is selected as `best_neighbor` only when its fitness exceeds
the running best candidate's fitness (aspiration criterion). -/
theorem c4_tabu_invariants_amended :
    ∀ (init : Candidate) (f : List ℚ → ℚ) (size : ℕ)
      (iters : List (List (ℕ × ℚ))), 1 ≤ size →
      (∀ s ∈ tabuStates init f size iters,
        s.current.chromosome ∈ s.tabu ∧ s.tabu.length ≤ size) ∧
      (∀ (q : List (List ℚ)) (x : List ℚ), q.length ≤ size →
        (pushTabu size q x).length ≤ size ∧ x ∈ pushTabu size q x ∧
          (q.length = size → pushTabu size q x = q.drop 1 ++ [x])) ∧
      (∀ (nbs : List Candidate) (tabu : List (List ℚ)) (bf : ℚ)
        (bn : Candidate), bestNeighborSel nbs tabu bf = some bn →
        bn.chromosome ∈ tabu → bf < bn.fitness) := by
  intro init f size iters h1
  refine ⟨?_, ?_, ?_⟩
  · refine mem_runStates_inv (tabu_iteration f size)
      (fun s => s.current.chromosome ∈ s.tabu ∧ s.tabu.length ≤ size)
      (fun s dr hs => tabu_iteration_inv f size h1 s dr hs) iters _ ⟨?_, ?_⟩
    · exact mem_pushTabu_self _ _ _ h1
    · exact length_pushTabu_le _ _ _ h1 (by simp)
  · intro q x hq
    exact ⟨length_pushTabu_le _ _ _ h1 hq, mem_pushTabu_self _ _ _ h1,
      fun hfull => pushTabu_full _ _ _ h1 hfull⟩
  · intro nbs tabu bf bn hsel htabu
    exact bestNeighborSel_aspiration nbs tabu bf bn hsel htabu

/-- C4 witness: the amended invariants instantiated on a concrete run with
`tabu_list_size = 1`: the state at the end of the first iteration contains
the current chromosome in tabu memory, a full queue evicts its oldest
entry, and a concrete aspiration-admitted tabu neighbor exceeds the
running best fitness. -/
theorem c4_tabu_invariants_witness :
    ((⟨⟨[1], 0⟩, ⟨[1], 0⟩, [[1]]⟩ : TabuState).current.chromosome ∈
        (⟨⟨[1], 0⟩, ⟨[1], 0⟩, [[1]]⟩ : TabuState).tabu ∧
      (⟨⟨[1], 0⟩, ⟨[1], 0⟩, [[1]]⟩ : TabuState).tabu.length ≤ 1) ∧
      (pushTabu 1 [[5]] [7]).length ≤ 1 ∧
      (0 : ℚ) < (⟨[2], 3⟩ : Candidate).fitness := by
  refine ⟨?_, ?_, ?_⟩
  · refine (c4_tabu_invariants_amended ⟨[1], 0⟩ (fun _ => 0) 1 [[]]
      le_rfl).1 _ ?_
    have h : tabuStates ⟨[1], 0⟩ (fun _ => 0) 1 [[]] =
        [⟨⟨[1], 0⟩, ⟨[1], 0⟩, [[1]]⟩, ⟨⟨[1], 0⟩, ⟨[1], 0⟩, [[1]]⟩] := rfl
    rw [h]
    exact List.mem_cons_self _ _
  · exact ((c4_tabu_invariants_amended ⟨[1], 0⟩ (fun _ => 0) 1 [[]]
      le_rfl).2.1 [[5]] [7] (by simp)).1
  · exact (c4_tabu_invariants_amended ⟨[1], 0⟩ (fun _ => 0) 1 [[]]
      le_rfl).2.2 [⟨[2], 3⟩] [[2]] 0 ⟨[2], 3⟩ (by rfl) (by simp)

lemma heapGet_set_self (σ : Store) (r : ℕ) (c : Candidate)
    (h : r < σ.length) : heapGet (σ.set r c) r = c := by
  unfold heapGet
  rw [List.getD_eq_getElem?_getD, List.getElem?_set_self h]
  rfl

lemma heapGet_set_ne (σ : Store) (r i : ℕ) (c : Candidate) (h : i ≠ r) :
    heapGet (σ.set r c) i = heapGet σ i := by
  unfold heapGet
  rw [List.getD_eq_getElem?_getD, List.getElem?_set_ne (Ne.symm h),
    List.getD_eq_getElem?_getD]

lemma heapGet_append (σ : Store) (c : Candidate) (i : ℕ)
    (h : i < σ.length) : heapGet (σ ++ [c]) i = heapGet σ i := by
  unfold heapGet
  exact List.getD_append σ [c] defaultCandidate i h

lemma set_append_length (σ : Store) (c c' : Candidate) :
    (σ ++ [c]).set σ.length c' = σ ++ [c'] := by
  induction σ with
  | nil => rfl
  | cons a σ ih => simp [ih]

lemma allocEval_eq (f : List ℚ → ℚ) (σ : Store) (nc : List ℚ) :
    calcFitnessAt f (allocCandidate σ nc).1 (allocCandidate σ nc).2 =
      σ ++ [⟨nc, f nc⟩] := by
  unfold calcFitnessAt allocCandidate Candidate.calculate_fitness
  dsimp only
  have h : heapGet (σ ++ [⟨nc, 0⟩]) σ.length = ⟨nc, 0⟩ := by
    unfold heapGet
    rw [List.getD_eq_getElem?_getD, List.getElem?_append_right le_rfl]
    simp
  rw [h]
  exact set_append_length σ ⟨nc, 0⟩ ⟨nc, f nc⟩

lemma hcLoopHeap_frame (f : List ℚ → ℚ) :
    ∀ (ds : List (ℕ × ℚ)) (σ : Store) (cur : ℕ),
      σ.length ≤ (hcLoopHeap f σ cur ds).1.length ∧
      ∀ i < σ.length, heapGet (hcLoopHeap f σ cur ds).1 i = heapGet σ i := by
  intro ds
  induction ds with
  | nil => intro σ cur; exact ⟨le_rfl, fun i _ => rfl⟩
  | cons d ds ih =>
    intro σ cur
    unfold hcLoopHeap
    dsimp only
    rw [allocEval_eq]
    have hlen : σ.length ≤ (σ ++ [(⟨neighborChromosome (heapGet σ cur) d,
        f (neighborChromosome (heapGet σ cur) d)⟩ : Candidate)]).length := by
      simp
    split
    · refine ⟨le_trans hlen (ih _ _).1, fun i hi => ?_⟩
      rw [(ih _ _).2 i (lt_of_lt_of_le hi hlen), heapGet_append _ _ _ hi]
    · refine ⟨le_trans hlen (ih _ _).1, fun i hi => ?_⟩
      rw [(ih _ _).2 i (lt_of_lt_of_le hi hlen), heapGet_append _ _ _ hi]

lemma saLoopHeap_frame (f : List ℚ → ℚ) :
    ∀ (ds : List (ℕ × ℚ × Bool)) (σ : Store) (cur best : ℕ),
      σ.length ≤ (saLoopHeap f σ cur best ds).1.length ∧
      ∀ i < σ.length,
        heapGet (saLoopHeap f σ cur best ds).1 i = heapGet σ i := by
  intro ds
  induction ds with
  | nil => intro σ cur best; exact ⟨le_rfl, fun i _ => rfl⟩
  | cons d ds ih =>
    intro σ cur best
    unfold saLoopHeap
    dsimp only
    rw [allocEval_eq]
    have hlen : σ.length ≤
        (σ ++ [(⟨neighborChromosome (heapGet σ cur) (d.1, d.2.1),
          f (neighborChromosome (heapGet σ cur) (d.1, d.2.1))⟩ :
            Candidate)]).length := by
      simp
    split
    · refine ⟨le_trans hlen (ih _ _ _).1, fun i hi => ?_⟩
      rw [(ih _ _ _).2 i (lt_of_lt_of_le hi hlen), heapGet_append _ _ _ hi]
    · refine ⟨le_trans hlen (ih _ _ _).1, fun i hi => ?_⟩
      rw [(ih _ _ _).2 i (lt_of_lt_of_le hi hlen), heapGet_append _ _ _ hi]

lemma tabuNbrsHeap_frame (f : List ℚ → ℚ) :
    ∀ (ds : List (ℕ × ℚ)) (σ : Store) (cur : ℕ),
      σ.length ≤ (tabuNbrsHeap f σ cur ds).1.length ∧
      ∀ i < σ.length,
        heapGet (tabuNbrsHeap f σ cur ds).1 i = heapGet σ i := by
  intro ds
  induction ds with
  | nil => intro σ cur; exact ⟨le_rfl, fun i _ => rfl⟩
  | cons d ds ih =>
    intro σ cur
    unfold tabuNbrsHeap
    dsimp only
    rw [allocEval_eq]
    have hlen : σ.length ≤ (σ ++ [(⟨neighborChromosome (heapGet σ cur) d,
        f (neighborChromosome (heapGet σ cur) d)⟩ : Candidate)]).length := by
      simp
    refine ⟨le_trans hlen (ih _ _).1, fun i hi => ?_⟩
    rw [(ih _ _).2 i (lt_of_lt_of_le hi hlen), heapGet_append _ _ _ hi]

lemma tabuLoopHeap_frame (f : List ℚ → ℚ) (size : ℕ) :
    ∀ (iters : List (List (ℕ × ℚ))) (σ : Store) (cur best : ℕ)
      (tabu : List (List ℚ)),
      σ.length ≤ (tabuLoopHeap f size σ cur best tabu iters).1.length ∧
      ∀ i < σ.length,
        heapGet (tabuLoopHeap f size σ cur best tabu iters).1 i =
          heapGet σ i := by
  intro iters
  induction iters with
  | nil => intro σ cur best tabu; exact ⟨le_rfl, fun i _ => rfl⟩
  | cons dr iters ih =>
    intro σ cur best tabu
    have hg := tabuNbrsHeap_frame f dr σ cur
    unfold tabuLoopHeap
    dsimp only
    split
    · split
      · refine ⟨le_trans hg.1 (ih _ _ _ _).1, fun i hi => ?_⟩
        rw [(ih _ _ _ _).2 i (lt_of_lt_of_le hi hg.1), hg.2 i hi]
      · refine ⟨le_trans hg.1 (ih _ _ _ _).1, fun i hi => ?_⟩
        rw [(ih _ _ _ _).2 i (lt_of_lt_of_le hi hg.1), hg.2 i hi]
    · refine ⟨le_trans hg.1 (ih _ _ _ _).1, fun i hi => ?_⟩
      rw [(ih _ _ _ _).2 i (lt_of_lt_of_le hi hg.1), hg.2 i hi]

lemma heapGet_calcFitnessAt_self (f : List ℚ → ℚ) (σ : Store) (r : ℕ)
    (h : r < σ.length) :
    heapGet (calcFitnessAt f σ r) r =
      ⟨(heapGet σ r).chromosome, f (heapGet σ r).chromosome⟩ := by
  unfold calcFitnessAt Candidate.calculate_fitness
  exact heapGet_set_self σ r _ h

lemma heapGet_calcFitnessAt_ne (f : List ℚ → ℚ) (σ : Store) (r i : ℕ)
    (h : i ≠ r) : heapGet (calcFitnessAt f σ r) i = heapGet σ i := by
  unfold calcFitnessAt
  exact heapGet_set_ne σ r i _ h

/-- C9.  Each of the three drivers, run on the store-instrumented
transcription, mutates the fitness field of the caller's input Candidate
object in place exactly once — at the initial `calculate_fitness` call,
before searching — leaving its chromosome unchanged (the object at the
input reference afterwards holds the original chromosome with fitness
re-evaluated on it, whatever the random draws were), and leaves every
other pre-existing Candidate object in the store unchanged (all later
`calculate_fitness` calls target freshly allocated neighbor objects). -/
theorem c9_driver_frame_effects :
    ∀ (σ : Store) (r : ℕ) (f : List ℚ → ℚ), r < σ.length →
      (∀ draws : List (ℕ × ℚ),
        heapGet (hill_climb_heap σ r f draws).1 r =
          ⟨(heapGet σ r).chromosome, f (heapGet σ r).chromosome⟩ ∧
        ∀ i < σ.length, i ≠ r →
          heapGet (hill_climb_heap σ r f draws).1 i = heapGet σ i) ∧
      (∀ draws : List (ℕ × ℚ × Bool),
        heapGet (simulated_annealing_heap σ r f draws).1 r =
          ⟨(heapGet σ r).chromosome, f (heapGet σ r).chromosome⟩ ∧
        ∀ i < σ.length, i ≠ r →
          heapGet (simulated_annealing_heap σ r f draws).1 i = heapGet σ i) ∧
      ∀ (size : ℕ) (iters : List (List (ℕ × ℚ))),
        heapGet (tabu_search_heap σ r f size iters).1 r =
          ⟨(heapGet σ r).chromosome, f (heapGet σ r).chromosome⟩ ∧
        ∀ i < σ.length, i ≠ r →
          heapGet (tabu_search_heap σ r f size iters).1 i = heapGet σ i := by
  intro σ r f hr
  have hσ1 : (calcFitnessAt f σ r).length = σ.length := by
    unfold calcFitnessAt
    exact List.length_set σ r _
  refine ⟨fun draws => ⟨?_, ?_⟩, fun draws => ⟨?_, ?_⟩,
    fun size iters => ⟨?_, ?_⟩⟩
  · rw [show hill_climb_heap σ r f draws =
        hcLoopHeap f (calcFitnessAt f σ r) r draws from rfl,
      (hcLoopHeap_frame f draws _ r).2 r (by omega),
      heapGet_calcFitnessAt_self f σ r hr]
  · intro i hi hne
    rw [show hill_climb_heap σ r f draws =
        hcLoopHeap f (calcFitnessAt f σ r) r draws from rfl,
      (hcLoopHeap_frame f draws _ r).2 i (by omega),
      heapGet_calcFitnessAt_ne f σ r i hne]
  · rw [show simulated_annealing_heap σ r f draws =
        saLoopHeap f (calcFitnessAt f σ r) r r draws from rfl,
      (saLoopHeap_frame f draws _ r r).2 r (by omega),
      heapGet_calcFitnessAt_self f σ r hr]
  · intro i hi hne
    rw [show simulated_annealing_heap σ r f draws =
        saLoopHeap f (calcFitnessAt f σ r) r r draws from rfl,
      (saLoopHeap_frame f draws _ r r).2 i (by omega),
      heapGet_calcFitnessAt_ne f σ r i hne]
  · rw [show tabu_search_heap σ r f size iters =
        tabuLoopHeap f size (calcFitnessAt f σ r) r r
          (pushTabu size [] (heapGet (calcFitnessAt f σ r) r).chromosome)
          iters from rfl,
      (tabuLoopHeap_frame f size iters _ r r _).2 r (by omega),
      heapGet_calcFitnessAt_self f σ r hr]
  · intro i hi hne
    rw [show tabu_search_heap σ r f size iters =
        tabuLoopHeap f size (calcFitnessAt f σ r) r r
          (pushTabu size [] (heapGet (calcFitnessAt f σ r) r).chromosome)
          iters from rfl,
      (tabuLoopHeap_frame f size iters _ r r _).2 i (by omega),
      heapGet_calcFitnessAt_ne f σ r i hne]

/-- C9 witness: on a concrete two-object store, after a one-iteration
`hill_climb` run on reference 0, the object at reference 0 holds its
original chromosome with re-evaluated fitness, and the object at
reference 1 is untouched; likewise for the other two drivers. -/
theorem c9_driver_frame_effects_witness :
    (heapGet (hill_climb_heap [⟨[1], 5⟩, ⟨[2], 7⟩] 0 (fun _ => 3)
        [(0, 9)]).1 0 =
      ⟨(heapGet [⟨[1], 5⟩, ⟨[2], 7⟩] 0).chromosome,
        (fun _ => (3 : ℚ)) (heapGet [⟨[1], 5⟩, ⟨[2], 7⟩] 0).chromosome⟩) ∧
    (heapGet (hill_climb_heap [⟨[1], 5⟩, ⟨[2], 7⟩] 0 (fun _ => 3)
        [(0, 9)]).1 1 = heapGet [⟨[1], 5⟩, ⟨[2], 7⟩] 1) ∧
    (heapGet (simulated_annealing_heap [⟨[1], 5⟩, ⟨[2], 7⟩] 0 (fun _ => 3)
        [(0, 9, true)]).1 1 = heapGet [⟨[1], 5⟩, ⟨[2], 7⟩] 1) ∧
    (heapGet (tabu_search_heap [⟨[1], 5⟩, ⟨[2], 7⟩] 0 (fun _ => 3) 10
        [[(0, 9)]]).1 1 = heapGet [⟨[1], 5⟩, ⟨[2], 7⟩] 1) := by
  have h := c9_driver_frame_effects [⟨[1], 5⟩, ⟨[2], 7⟩] 0 (fun _ => 3)
    (by decide)
  exact ⟨(h.1 [(0, 9)]).1, (h.1 [(0, 9)]).2 1 (by decide) (by decide),
    (h.2.1 [(0, 9, true)]).2 1 (by decide) (by decide),
    (h.2.2 10 [[(0, 9)]]).2 1 (by decide) (by decide)⟩

lemma totalFitness_eq_zero (gen : List Candidate)
    (h : ∀ c ∈ gen, c.fitness = 0) : totalFitness gen = 0 := by
  unfold totalFitness
  refine List.sum_eq_zero ?_
  intro x hx
  rcases List.mem_map.mp hx with ⟨c, hc, rfl⟩
  exact h c hc

lemma selectOneGo_all_zero :
    ∀ gen : List Candidate, (∀ c ∈ gen, c.fitness = 0) →
      ∀ (pick : ℚ) (i : ℕ) (cur : ℚ), cur ≤ pick →
        selectOneGo gen i cur pick = none := by
  intro gen
  induction gen with
  | nil => intro _ _ _ _ _; rfl
  | cons c rest ih =>
    intro h pick i cur hcur
    unfold selectOneGo
    rw [h c (List.mem_cons_self c rest)]
    rw [if_neg (by linarith)]
    exact ih (fun c hc => h c (List.mem_cons_of_mem _ hc)) pick (i + 1)
      (cur + 0) (by linarith)

lemma rouletteResample_none (gen : List Candidate) (u : ℕ → ℚ)
    (hsel : ∀ k, select_one gen (totalFitness gen * u k) = none) :
    ∀ fuel k, rouletteResample gen u none k fuel = none := by
  intro fuel
  induction fuel with
  | zero => intro k; rfl
  | succ fuel ih =>
    intro k
    unfold rouletteResample
    rw [hsel k, if_pos rfl]
    exact ih (k + 1)

lemma susWhile_not_gt (i : ℕ) (cum sp cp : ℚ) (h : ¬cum > cp) :
    ∀ fuel, susWhile i cum sp cp fuel = ([], cp) := by
  intro fuel
  cases fuel with
  | zero => rfl
  | succ fuel =>
    unfold susWhile
    rw [if_neg h]

lemma foldl_susStep_all_zero (np : ℕ) :
    ∀ l : List (ℕ × Candidate), (∀ p ∈ l, (p.2).fitness = 0) →
      l.foldl (susStep np 0) ([], 0, 0) = ([], 0, 0) := by
  intro l
  induction l with
  | nil => intro _; rfl
  | cons p rest ih =>
    intro h
    have hstep : susStep np 0 ([], 0, 0) p = ([], 0, 0) := by
      unfold susStep
      rw [h p (List.mem_cons_self p rest)]
      dsimp only
      rw [add_zero, susWhile_not_gt _ _ _ _ (lt_irrefl 0)]
      rfl
    rw [List.foldl_cons, hstep]
    exact ih (fun q hq => h q (List.mem_cons_of_mem _ hq))

lemma zeroGen_all_zero :
    ∀ c ∈ [(⟨[10], 0⟩ : Candidate), ⟨[20], 0⟩], Candidate.fitness c = 0 := by
  decide

lemma rank_based_zeroGen :
    rank_based_selection [⟨[10], 0⟩, ⟨[20], 0⟩] (fun _ => 0) =
      (some 0, some 0) := by
  have hsorted : ranked_generation [(⟨[10], 0⟩ : Candidate), ⟨[20], 0⟩] =
      [⟨[10], 0⟩, ⟨[20], 0⟩] :=
    List.mergeSort_of_sorted (by decide)
  unfold rank_based_selection rank_select_one
  rw [hsorted]
  have hpick : ∀ k : ℕ, ((total_ranks [(⟨[10], 0⟩ : Candidate), ⟨[20], 0⟩] :
      ℚ) * (fun _ : ℕ => (0 : ℚ)) k) = 0 := by
    intro k
    rw [mul_zero]
  rw [hpick 0]
  unfold rankSelGo
  norm_num

/-- C5 counterexample.  On a concrete population whose total fitness is
zero (every fitness is 0), `rank_based_selection` does not reject the
input: it completes normally and returns the first-ranked candidate
twice.  This refutes the claim that rank-based selection surfaces an
error on zero total fitness. -/
theorem c5_rank_based_no_error_counterexample :
    (∀ c ∈ [(⟨[10], 0⟩ : Candidate), ⟨[20], 0⟩], Candidate.fitness c = 0) ∧
      rank_based_selection [⟨[10], 0⟩, ⟨[20], 0⟩] (fun _ => 0) =
        (some 0, some 0) :=
  ⟨zeroGen_all_zero, rank_based_zeroGen⟩

/-- C5 (amended).  None of the three operators validates degenerate total
fitness.  On a population whose fitness values are all zero:
roulette-wheel selection never returns (both picks degenerate to 0, every
`select_one` walk falls through to `None`, and the `parent2 == parent1`
re-sampling loop spins forever — modelled as `none` for every fuel); SUS
collects no parents and fails with an IndexError at `parents[0]` (`none`)
rather than a descriptive rejection; and rank-based selection, which never
consults total fitness, completes normally and returns two parents. -/
theorem c5_degenerate_fitness_amended :
    (∀ (gen : List Candidate) (u : ℕ → ℚ) (fuel : ℕ),
      (∀ c ∈ gen, c.fitness = 0) →
        roulette_wheel_selection gen u fuel = none) ∧
    (∀ (gen : List Candidate) (np : ℕ) (u : ℕ → ℚ),
      (∀ c ∈ gen, c.fitness = 0) →
        stochastic_universal_sampling gen np u = none) ∧
    ∃ (gen : List Candidate) (u : ℕ → ℚ) (i : ℕ),
      (∀ c ∈ gen, c.fitness = 0) ∧ gen ≠ [] ∧
        rank_based_selection gen u = (some i, some i) := by
  refine ⟨?_, ?_, ?_⟩
  · intro gen u fuel h
    have ht := totalFitness_eq_zero gen h
    have hsel : ∀ k, select_one gen (totalFitness gen * u k) = none := by
      intro k
      rw [ht, zero_mul]
      exact selectOneGo_all_zero gen h 0 0 0 le_rfl
    unfold roulette_wheel_selection
    rw [hsel 0]
    exact rouletteResample_none gen u hsel fuel 1
  · intro gen np u h
    unfold stochastic_universal_sampling
    by_cases hnp : np = 0
    · rw [if_pos hnp]
    · rw [if_neg hnp]
      have ht := totalFitness_eq_zero gen h
      have hps : susParents gen np (totalFitness gen / np)
          (totalFitness gen / np * u 0) = [] := by
        rw [ht, zero_div, zero_mul]
        unfold susParents susScan
        rw [foldl_susStep_all_zero np gen.enum
          (fun p hp => h p.2 (List.snd_mem_of_mem_enum hp))]
      dsimp only
      rw [hps]
      rfl
  · exact ⟨[⟨[10], 0⟩, ⟨[20], 0⟩], fun _ => 0, 0, zeroGen_all_zero,
      by simp, rank_based_zeroGen⟩

/-- C5 witness: the two universal conjuncts instantiated on the concrete
all-zero-fitness population of the counterexample. -/
theorem c5_degenerate_fitness_witness :
    roulette_wheel_selection [⟨[10], 0⟩, ⟨[20], 0⟩] (fun _ => 0) 5 = none ∧
      stochastic_universal_sampling [⟨[10], 0⟩, ⟨[20], 0⟩] 2
        (fun _ => 0) = none := by
  constructor
  · exact c5_degenerate_fitness_amended.1 [⟨[10], 0⟩, ⟨[20], 0⟩]
      (fun _ => 0) 5 zeroGen_all_zero
  · exact c5_degenerate_fitness_amended.2.1 [⟨[10], 0⟩, ⟨[20], 0⟩] 2
      (fun _ => 0) zeroGen_all_zero

lemma rouletteResample_ne (gen : List Candidate) (u : ℕ → ℚ)
    (p1 : Option ℕ) :
    ∀ (fuel k : ℕ) (pr : Option ℕ × Option ℕ),
      rouletteResample gen u p1 k fuel = some pr → pr.1 ≠ pr.2 := by
  intro fuel
  induction fuel with
  | zero => intro k pr h; cases h
  | succ fuel ih =>
    intro k pr h
    unfold rouletteResample at h
    dsimp only at h
    split at h
    · exact ih (k + 1) pr h
    · rename_i hne
      cases h
      exact fun hh => hne hh.symm

lemma truncResample_ne (size : ℕ) (k : ℕ → ℕ) (p1 : ℕ) :
    ∀ (fuel i : ℕ) (pr : ℕ × ℕ),
      truncResample size k p1 i fuel = some pr → pr.1 ≠ pr.2 := by
  intro fuel
  induction fuel with
  | zero => intro i pr h; cases h
  | succ fuel ih =>
    intro i pr h
    unfold truncResample at h
    dsimp only at h
    split at h
    · exact ih (i + 1) pr h
    · rename_i hne
      cases h
      exact fun hh => hne hh.symm

lemma rank_based_posGen :
    rank_based_selection [⟨[10], 1⟩, ⟨[20], 2⟩] (fun _ => 0) =
      (some 0, some 0) := by
  have hsorted : ranked_generation [(⟨[10], 1⟩ : Candidate), ⟨[20], 2⟩] =
      [⟨[10], 1⟩, ⟨[20], 2⟩] :=
    List.mergeSort_of_sorted (by decide)
  unfold rank_based_selection rank_select_one
  rw [hsorted]
  have hpick : ∀ k : ℕ, ((total_ranks [(⟨[10], 1⟩ : Candidate), ⟨[20], 2⟩] :
      ℚ) * (fun _ : ℕ => (0 : ℚ)) k) = 0 := by
    intro k
    rw [mul_zero]
  rw [hpick 0]
  unfold rankSelGo
  norm_num

lemma sus_singleton :
    stochastic_universal_sampling [⟨[10], 10⟩] 2 (fun _ => 0) =
      some (0, 0) := by
  have henum : ([(⟨[10], 10⟩ : Candidate)]).enum = [(0, ⟨[10], 10⟩)] := rfl
  unfold stochastic_universal_sampling susParents susScan
  rw [henum]
  norm_num [totalFitness, susStep, susWhile]

lemma elitism_singleton :
    elitism_selection [⟨[10], 1⟩] 0 (fun _ => 0) = some (0, 0) := by
  unfold elitism_selection eliteGroup sortedDescending
  rw [List.mergeSort_singleton]
  norm_num

lemma roulette_dupchrom :
    roulette_wheel_selection [⟨[5], 1⟩, ⟨[5], 1⟩]
      (fun k => if k = 0 then 0 else 3 / 5) 1 = some (some 0, some 1) := by
  norm_num [roulette_wheel_selection, rouletteResample, select_one,
    selectOneGo, totalFitness]

lemma truncation_concrete :
    truncation_selection [⟨[30], 2⟩, ⟨[40], 1⟩] 1 (fun i => i) 1 =
      some (0, 1) := by
  have hsorted : sortedDescending [(⟨[30], 2⟩ : Candidate), ⟨[40], 1⟩] =
      [⟨[30], 2⟩, ⟨[40], 1⟩] :=
    List.mergeSort_of_sorted (by decide)
  unfold truncation_selection truncationGroup
  rw [hsorted]
  norm_num [truncResample, Int.toNat_ofNat]
  decide

/-- C1 counterexample.  On the two-candidate population with fitness 1
and 2 and both uniform draws returning 0, `rank_based_selection`
returns the same candidate object (the first ranked position) as both
parents, refuting the claim that every selection operator except elitism
returns two parents that are not equal. -/
theorem c1_rank_based_equal_parents :
    (rank_based_selection [⟨[10], 1⟩, ⟨[20], 2⟩] (fun _ => 0)).1 =
      (rank_based_selection [⟨[10], 1⟩, ⟨[20], 2⟩] (fun _ => 0)).2 ∧
    (rank_based_selection [⟨[10], 1⟩, ⟨[20], 2⟩] (fun _ => 0)).1 =
      some 0 := by
  rw [rank_based_posGen]
  exact ⟨rfl, rfl⟩

/-- C1 (amended).  Only roulette-wheel and truncation selection enforce
distinct parents, and they do so by Python object identity (class
Candidate defines no `__eq__`), not by value equality of the chromosome:
whenever they return, the two parents are distinct objects (distinct
positions), but two distinct objects with equal chromosomes may be
returned together.  Rank-based, tournament and stochastic universal
sampling perform no distinct-parent enforcement and may return the same
candidate object twice, as may elitism. -/
theorem c1_selection_distinctness_amended :
    (∀ (gen : List Candidate) (u : ℕ → ℚ) (fuel : ℕ)
      (pr : Option ℕ × Option ℕ),
      roulette_wheel_selection gen u fuel = some pr → pr.1 ≠ pr.2) ∧
    (∀ (gen : List Candidate) (p : ℚ) (k : ℕ → ℕ) (fuel : ℕ) (pr : ℕ × ℕ),
      truncation_selection gen p k fuel = some pr → pr.1 ≠ pr.2) ∧
    (∃ (gen : List Candidate) (u : ℕ → ℚ) (i : ℕ),
      rank_based_selection gen u = (some i, some i)) ∧
    (∃ (gen : List Candidate) (s1 s2 : List ℕ) (i : ℕ),
      tournament_selection gen s1 s2 = (some i, some i)) ∧
    (∃ (gen : List Candidate) (np : ℕ) (u : ℕ → ℚ) (i : ℕ),
      stochastic_universal_sampling gen np u = some (i, i)) ∧
    (∃ (gen : List Candidate) (ef : ℚ) (k : ℕ → ℕ) (i : ℕ),
      elitism_selection gen ef k = some (i, i)) ∧
    ∃ (gen : List Candidate) (u : ℕ → ℚ) (fuel i j : ℕ), i ≠ j ∧
      (gen.getD i defaultCandidate).chromosome =
        (gen.getD j defaultCandidate).chromosome ∧
      roulette_wheel_selection gen u fuel = some (some i, some j) := by
  refine ⟨?_, ?_, ?_, ?_, ?_, ?_, ?_⟩
  · intro gen u fuel pr h
    unfold roulette_wheel_selection at h
    exact rouletteResample_ne gen u _ fuel 1 pr h
  · intro gen p k fuel pr h
    unfold truncation_selection at h
    dsimp only at h
    split at h
    · cases h
    · exact truncResample_ne _ k _ fuel 1 pr h
  · exact ⟨[⟨[10], 1⟩, ⟨[20], 2⟩], fun _ => 0, 0, rank_based_posGen⟩
  · exact ⟨[⟨[10], 1⟩], [0], [0], 0, rfl⟩
  · exact ⟨[⟨[10], 10⟩], 2, fun _ => 0, 0, sus_singleton⟩
  · exact ⟨[⟨[10], 1⟩], 0, fun _ => 0, 0, elitism_singleton⟩
  · exact ⟨[⟨[5], 1⟩, ⟨[5], 1⟩], fun k => if k = 0 then 0 else 3 / 5, 1,
      0, 1, by decide, rfl, roulette_dupchrom⟩

/-- C1 witness: a concrete successful roulette run and a concrete
successful truncation run, with the distinctness conclusions of the
amended theorem instantiated on them. -/
theorem c1_selection_distinctness_witness :
    roulette_wheel_selection [⟨[5], 1⟩, ⟨[5], 1⟩]
        (fun k => if k = 0 then 0 else 3 / 5) 1 = some (some 0, some 1) ∧
      ((some 0 : Option ℕ) ≠ some 1) ∧
      truncation_selection [⟨[30], 2⟩, ⟨[40], 1⟩] 1 (fun i => i) 1 =
        some (0, 1) ∧
      (0 : ℕ) ≠ 1 := by
  refine ⟨roulette_dupchrom, ?_, truncation_concrete, ?_⟩
  · exact c1_selection_distinctness_amended.1 [⟨[5], 1⟩, ⟨[5], 1⟩]
      (fun k => if k = 0 then 0 else 3 / 5) 1 (some 0, some 1)
      roulette_dupchrom
  · exact c1_selection_distinctness_amended.2.1 [⟨[30], 2⟩, ⟨[40], 1⟩] 1
      (fun i => i) 1 (0, 1) truncation_concrete

lemma susWhile_len_le (i : ℕ) (cum sp : ℚ) :
    ∀ (fuel : ℕ) (cp : ℚ), (susWhile i cum sp cp fuel).1.length ≤ fuel := by
  intro fuel
  induction fuel with
  | zero => intro cp; exact le_rfl
  | succ fuel ih =>
    intro cp
    unfold susWhile
    split
    · dsimp only
      simp only [List.length_cons]
      have := ih (cp + sp)
      omega
    · simp

lemma susWhile_cp (i : ℕ) (cum sp : ℚ) :
    ∀ (fuel : ℕ) (cp : ℚ),
      (susWhile i cum sp cp fuel).2 =
        cp + (susWhile i cum sp cp fuel).1.length * sp := by
  intro fuel
  induction fuel with
  | zero => intro cp; simp [susWhile]
  | succ fuel ih =>
    intro cp
    unfold susWhile
    split
    · dsimp only
      rw [ih (cp + sp)]
      simp only [List.length_cons]
      push_cast
      ring
    · simp

lemma susWhile_exit (i : ℕ) (cum sp : ℚ) :
    ∀ (fuel : ℕ) (cp : ℚ),
      (susWhile i cum sp cp fuel).1.length < fuel →
      cum ≤ (susWhile i cum sp cp fuel).2 := by
  intro fuel
  induction fuel with
  | zero => intro cp h; omega
  | succ fuel ih =>
    intro cp h
    revert h
    unfold susWhile
    split
    · intro h
      dsimp only at h ⊢
      simp only [List.length_cons] at h
      exact ih (cp + sp) (by omega)
    · rename_i hno
      intro _
      exact le_of_not_lt hno

lemma foldl_susStep_inv (np : ℕ) (sp s : ℚ) :
    ∀ (l : List (ℕ × Candidate)) (st : List ℕ × ℚ × ℚ),
      st.1.length ≤ np →
      st.2.1 = s + st.1.length * sp →
      (st.1.length < np → st.2.2 ≤ st.2.1) →
      (l.foldl (susStep np sp) st).1.length ≤ np ∧
      (l.foldl (susStep np sp) st).2.1 =
        s + (l.foldl (susStep np sp) st).1.length * sp ∧
      ((l.foldl (susStep np sp) st).1.length < np →
        (l.foldl (susStep np sp) st).2.2 ≤
          (l.foldl (susStep np sp) st).2.1) := by
  intro l
  induction l with
  | nil => intro st h1 h2 h3; exact ⟨h1, h2, h3⟩
  | cons p rest ih =>
    intro st h1 h2 h3
    rw [List.foldl_cons]
    refine ih (susStep np sp st p) ?_ ?_ ?_
    · show (st.1 ++ _).length ≤ np
      rw [List.length_append]
      have := susWhile_len_le p.1 (st.2.2 + p.2.fitness) sp
        (np - st.1.length) st.2.1
      omega
    · show (susWhile p.1 (st.2.2 + p.2.fitness) sp st.2.1
          (np - st.1.length)).2 = s + ((st.1 ++ _).length : ℕ) * sp
      rw [susWhile_cp, h2, List.length_append]
      push_cast
      ring
    · intro hlt
      show st.2.2 + p.2.fitness ≤
        (susWhile p.1 (st.2.2 + p.2.fitness) sp st.2.1
          (np - st.1.length)).2
      refine susWhile_exit p.1 (st.2.2 + p.2.fitness) sp
        (np - st.1.length) st.2.1 ?_
      have hl : ((susStep np sp st p).1).length =
          st.1.length + (susWhile p.1 (st.2.2 + p.2.fitness) sp st.2.1
            (np - st.1.length)).1.length := by
        show (st.1 ++ _).length = _
        rw [List.length_append]
      rw [hl] at hlt
      omega

lemma foldl_susStep_cum (np : ℕ) (sp : ℚ) :
    ∀ (l : List (ℕ × Candidate)) (st : List ℕ × ℚ × ℚ),
      (l.foldl (susStep np sp) st).2.2 =
        st.2.2 + (l.map (fun p => p.2.fitness)).sum := by
  intro l
  induction l with
  | nil => intro st; simp
  | cons p rest ih =>
    intro st
    rw [List.foldl_cons, ih]
    show st.2.2 + p.2.fitness + _ = _
    simp only [List.map_cons, List.sum_cons]
    ring

lemma susScan_cum (gen : List Candidate) (np : ℕ) (sp s : ℚ) :
    (susScan gen np sp s).2.2 = totalFitness gen := by
  unfold susScan totalFitness
  rw [foldl_susStep_cum]
  have hm : gen.enum.map (fun p => p.2.fitness) =
      gen.map Candidate.fitness := by
    have := List.enum_map_snd gen
    calc gen.enum.map (fun p => p.2.fitness)
        = (gen.enum.map Prod.snd).map Candidate.fitness := by
          rw [List.map_map]; rfl
      _ = gen.map Candidate.fitness := by rw [this]
  rw [hm]
  show (0 : ℚ) + _ = _
  ring

lemma susParents_length (gen : List Candidate) (np : ℕ) (s : ℚ)
    (hnp : np ≠ 0) (ht : 0 < totalFitness gen) (hs0 : 0 ≤ s)
    (hs1 : s < totalFitness gen / np) :
    (susParents gen np (totalFitness gen / np) s).length = np := by
  set sp := totalFitness gen / np with hsp
  have hEq : susParents gen np sp s =
      (gen.enum.foldl (susStep np sp) ([], s, 0)).1 := rfl
  have hcumEq : (gen.enum.foldl (susStep np sp) ([], s, 0)).2.2 =
      totalFitness gen := susScan_cum gen np sp s
  obtain ⟨hle, hcp, hexit⟩ := foldl_susStep_inv np sp s gen.enum ([], s, 0)
    (by simp) (by simp) (fun _ => by simpa using hs0)
  rw [hEq]
  by_contra hne
  have hlt : (gen.enum.foldl (susStep np sp) ([], s, 0)).1.length < np :=
    lt_of_le_of_ne hle hne
  have h1 := hexit hlt
  rw [hcumEq, hcp] at h1
  have hsp_pos : 0 < sp := by
    rw [hsp]
    positivity
  have hlen : ((gen.enum.foldl (susStep np sp) ([], s, 0)).1.length : ℚ) +
      1 ≤ (np : ℚ) := by
    exact_mod_cast hlt
  have hb : s + ((gen.enum.foldl (susStep np sp)
      ([], s, 0)).1.length : ℚ) * sp < (np : ℚ) * sp := by
    calc s + ((gen.enum.foldl (susStep np sp) ([], s, 0)).1.length : ℚ) * sp
        < sp + ((gen.enum.foldl (susStep np sp)
            ([], s, 0)).1.length : ℚ) * sp := by linarith
      _ = (((gen.enum.foldl (susStep np sp)
            ([], s, 0)).1.length : ℚ) + 1) * sp := by ring
      _ ≤ (np : ℚ) * sp :=
          mul_le_mul_of_nonneg_right hlen (le_of_lt hsp_pos)
  have hnpsp : (np : ℚ) * sp = totalFitness gen := by
    rw [hsp]
    field_simp
  linarith

lemma roundNearestEven_intCast (m : ℤ) : roundNearestEven (m : ℚ) = m := by
  unfold roundNearestEven
  rw [Int.floor_intCast]
  norm_num

lemma int_log2_eq (q : ℚ) (e : ℤ) (hq : 0 < q) (h1 : (2 : ℚ) ^ e ≤ q)
    (h2 : q < (2 : ℚ) ^ (e + 1)) : Int.log 2 q = e := by
  have hcast : ((2 : ℕ) : ℚ) = (2 : ℚ) := by norm_num
  have hlow := Int.zpow_log_le_self (b := 2) (R := ℚ) (by norm_num) hq
  have hhigh := Int.lt_zpow_succ_log_self (b := 2) (R := ℚ) (by norm_num) q
  rw [hcast] at hlow hhigh
  have he1 : e < Int.log 2 q + 1 := by
    by_contra hc
    push_neg at hc
    have h3 : (2 : ℚ) ^ (Int.log 2 q + 1) ≤ 2 ^ e :=
      (zpow_le_zpow_iff_right₀ (by norm_num : (1 : ℚ) < 2)).mpr hc
    linarith
  have he2 : Int.log 2 q < e + 1 := by
    by_contra hc
    push_neg at hc
    have h3 : (2 : ℚ) ^ (e + 1) ≤ 2 ^ (Int.log 2 q) :=
      (zpow_le_zpow_iff_right₀ (by norm_num : (1 : ℚ) < 2)).mpr hc
    linarith
  omega

lemma roundDouble_eq_self (q : ℚ) (e m : ℤ) (hq : 0 < q)
    (h1 : (2 : ℚ) ^ e ≤ q) (h2 : q < (2 : ℚ) ^ (e + 1))
    (hm : q / 2 ^ (e - 52) = (m : ℚ)) : roundDouble q = q := by
  unfold roundDouble
  rw [if_neg (ne_of_gt hq), abs_of_pos hq, int_log2_eq q e hq h1 h2]
  dsimp only
  rw [hm, roundNearestEven_intCast, ← hm]
  exact div_mul_cancel₀ q (zpow_ne_zero _ (by norm_num))

lemma roundDouble_one : roundDouble 1 = 1 :=
  roundDouble_eq_self 1 0 (2 ^ 52) (by norm_num) (by norm_num) (by norm_num)
    (by norm_num)

lemma roundDouble_two : roundDouble 2 = 2 :=
  roundDouble_eq_self 2 1 (2 ^ 52) (by norm_num) (by norm_num) (by norm_num)
    (by norm_num)

lemma roundDouble_three : roundDouble 3 = 3 :=
  roundDouble_eq_self 3 1 (3 * 2 ^ 51) (by norm_num) (by norm_num)
    (by norm_num) (by norm_num)

lemma roundDouble_four : roundDouble 4 = 4 :=
  roundDouble_eq_self 4 2 (2 ^ 52) (by norm_num) (by norm_num) (by norm_num)
    (by norm_num)

lemma roundDouble_nearTwo :
    roundDouble (2 - 1 / 2 ^ 52) = 2 - 1 / 2 ^ 52 :=
  roundDouble_eq_self (2 - 1 / 2 ^ 52) 0 (2 ^ 53 - 1) (by norm_num)
    (by norm_num) (by norm_num) (by norm_num)

lemma roundDouble_nearFour : roundDouble (4 - 1 / 2 ^ 52) = 4 := by
  unfold roundDouble
  rw [if_neg (by norm_num), abs_of_pos (by norm_num),
    int_log2_eq (4 - 1 / 2 ^ 52) 1 (by norm_num) (by norm_num) (by norm_num)]
  dsimp only
  have h1 : (4 - 1 / 2 ^ 52 : ℚ) / 2 ^ ((1 : ℤ) - 52) = 2 ^ 53 - 1 / 2 := by
    norm_num
  rw [h1]
  have h2 : roundNearestEven (2 ^ 53 - 1 / 2 : ℚ) = 2 ^ 53 := by
    unfold roundNearestEven
    have hf : Int.floor (2 ^ 53 - 1 / 2 : ℚ) = 2 ^ 53 - 1 := by norm_num
    rw [hf]
    norm_num
  rw [h2]
  norm_num

lemma fladd_zero_one : fladd 0 1 = 1 := by
  unfold fladd
  rw [zero_add, roundDouble_one]

lemma fladd_one_one : fladd 1 1 = 2 := by
  unfold fladd
  rw [show (1 : ℚ) + 1 = 2 by norm_num, roundDouble_two]

lemma fladd_two_one : fladd 2 1 = 3 := by
  unfold fladd
  rw [show (2 : ℚ) + 1 = 3 by norm_num, roundDouble_three]

lemma fladd_three_one : fladd 3 1 = 4 := by
  unfold fladd
  rw [show (3 : ℚ) + 1 = 4 by norm_num, roundDouble_four]

lemma flsum_four_ones : flsum [1, 1, 1, 1] = 4 := by
  unfold flsum
  simp only [List.foldl_cons, List.foldl_nil, fladd_zero_one, fladd_one_one,
    fladd_two_one, fladd_three_one]

lemma fldiv_four_two : fldiv 4 ((2 : ℕ) : ℚ) = 2 := by
  unfold fldiv
  rw [show (4 : ℚ) / ((2 : ℕ) : ℚ) = 2 by norm_num, roundDouble_two]

lemma flmul_two_maxdraw : flmul 2 (1 - 1 / 2 ^ 53) = 2 - 1 / 2 ^ 52 := by
  unfold flmul
  rw [show (2 : ℚ) * (1 - 1 / 2 ^ 53) = 2 - 1 / 2 ^ 52 by norm_num,
    roundDouble_nearTwo]

lemma fladd_drift : fladd (2 - 1 / 2 ^ 52) 2 = 4 := by
  unfold fladd
  rw [show (2 - 1 / 2 ^ 52 : ℚ) + 2 = 4 - 1 / 2 ^ 52 by norm_num,
    roundDouble_nearFour]

lemma susWhileF_not_gt (i : ℕ) (cum sp cp : ℚ) (h : ¬cum > cp) :
    ∀ fuel, susWhileF i cum sp cp fuel = ([], cp) := by
  intro fuel
  cases fuel with
  | zero => rfl
  | succ fuel =>
    unfold susWhileF
    rw [if_neg h]

lemma susWhileF_gt (i : ℕ) (cum sp cp : ℚ) (h : cum > cp) (fuel : ℕ) :
    susWhileF i cum sp cp (fuel + 1) =
      (i :: (susWhileF i cum sp (fladd cp sp) fuel).1,
        (susWhileF i cum sp (fladd cp sp) fuel).2) := by
  conv_lhs => rw [susWhileF]
  rw [if_pos h]

lemma susParentsF_drift_scenario :
    susParentsF [⟨[1], 1⟩, ⟨[2], 1⟩, ⟨[3], 1⟩, ⟨[4], 1⟩] 2 2
      (2 - 1 / 2 ^ 52) = [1] := by
  have henum : ([⟨[1], 1⟩, ⟨[2], 1⟩, ⟨[3], 1⟩, ⟨[4], 1⟩] :
      List Candidate).enum =
      [(0, ⟨[1], 1⟩), (1, ⟨[2], 1⟩), (2, ⟨[3], 1⟩), (3, ⟨[4], 1⟩)] := rfl
  unfold susParentsF susScanF
  rw [henum]
  simp only [List.foldl_cons, List.foldl_nil]
  have hs1 : susStepF 2 2 ([], 2 - 1 / 2 ^ 52, 0) (0, ⟨[1], 1⟩) =
      ([], 2 - 1 / 2 ^ 52, 1) := by
    unfold susStepF
    dsimp only
    rw [fladd_zero_one,
      susWhileF_not_gt 0 1 2 (2 - 1 / 2 ^ 52) (by norm_num) _]
    rfl
  rw [hs1]
  have hw2 : susWhileF 1 2 2 (2 - 1 / 2 ^ 52) 2 = ([1], 4) := by
    show susWhileF 1 2 2 (2 - 1 / 2 ^ 52) (1 + 1) = ([1], 4)
    rw [susWhileF_gt 1 2 2 (2 - 1 / 2 ^ 52) (by norm_num) 1, fladd_drift,
      susWhileF_not_gt 1 2 2 4 (by norm_num) 1]
  have hs2 : susStepF 2 2 ([], 2 - 1 / 2 ^ 52, 1) (1, ⟨[2], 1⟩) =
      ([1], 4, 2) := by
    unfold susStepF
    dsimp only
    rw [fladd_one_one]
    simp only [List.length_nil, Nat.sub_zero]
    rw [hw2]
    rfl
  rw [hs2]
  have hs3 : susStepF 2 2 ([1], 4, 2) (2, ⟨[3], 1⟩) = ([1], 4, 3) := by
    unfold susStepF
    dsimp only
    rw [fladd_two_one, susWhileF_not_gt 2 3 2 4 (by norm_num) _]
    rfl
  rw [hs3]
  have hs4 : susStepF 2 2 ([1], 4, 3) (3, ⟨[4], 1⟩) = ([1], 4, 4) := by
    unfold susStepF
    dsimp only
    rw [fladd_three_one, susWhileF_not_gt 3 4 2 4 (by norm_num) _]
    rfl
  rw [hs4]

/-- C6 counterexample.  Under the program's IEEE binary64 semantics, the
section-8 scenario itself (population of 4 candidates of fitness 1.0,
`num_parents = 2`) fails at the feasible start offset `2 - 2^-52` — the
value `uniform(0, 2.0)` returns when `random()` draws its maximum
`1 - 2^-53`: after the first pointer crossing,
`current_point += pointer_spacing` computes `4 - 2^-52`, exactly halfway
between doubles, and ties-to-even rounds it up to `4.0`; the remaining
cumulative fitness values `3.0` and `4.0` never exceed it, only one
parent is collected, and `parents[1]` raises IndexError (`none`).  This
refutes "returns exactly 2 parents for every random start offset" on the
real program. -/
theorem c6_sus_float_undercollect_counterexample :
    (0 : ℚ) ≤ 1 - 1 / 2 ^ 53 ∧ (1 - 1 / 2 ^ 53 : ℚ) < 1 ∧
      flmul 2 (1 - 1 / 2 ^ 53) = 2 - 1 / 2 ^ 52 ∧
      (susParentsF [⟨[1], 1⟩, ⟨[2], 1⟩, ⟨[3], 1⟩, ⟨[4], 1⟩] 2 2
        (2 - 1 / 2 ^ 52)).length = 1 ∧
      stochastic_universal_sampling_float
        [⟨[1], 1⟩, ⟨[2], 1⟩, ⟨[3], 1⟩, ⟨[4], 1⟩] 2
        (fun _ => 1 - 1 / 2 ^ 53) = none := by
  refine ⟨by norm_num, by norm_num, flmul_two_maxdraw, ?_, ?_⟩
  · rw [susParentsF_drift_scenario]
    rfl
  · unfold stochastic_universal_sampling_float
    rw [if_neg (by omega)]
    dsimp only
    rw [show ([⟨[1], 1⟩, ⟨[2], 1⟩, ⟨[3], 1⟩, ⟨[4], 1⟩] :
        List Candidate).map Candidate.fitness = [1, 1, 1, 1] from rfl,
      flsum_four_ones, fldiv_four_two, flmul_two_maxdraw,
      susParentsF_drift_scenario]
    rfl

/-- C6.  In exact (rational) arithmetic, `stochastic_universal_sampling`
collects exactly `num_parents` parents whenever `num_parents ≥ 1`, the
total fitness is positive (the operator's documented precondition, see
section 4.4 of the specification) and the start point is any value
`random.uniform(0, pointer_spacing)` can produce (`spacing * u` with
`0 ≤ u < 1`); with `num_parents = 2` the final `parents[0], parents[1]`
indexing then succeeds and a pair is returned.  In particular, over the
population of 4 candidates of fitness 1 each and `num_parents = 2`,
exactly 2 parents are collected and returned for every start offset.
This is the amended, idealized form of the claim: under the program's
IEEE binary64 semantics the rounding of `current_point +=
pointer_spacing` can under-collect and make `parents[1]` raise
IndexError at the same scenario — the drift edge case of section 9,
established above on the float transcription. -/
theorem c6_sus_exact_count :
    (∀ (gen : List Candidate) (np : ℕ) (u : ℕ → ℚ), np ≠ 0 →
      0 < totalFitness gen → 0 ≤ u 0 → u 0 < 1 →
      (susParents gen np (totalFitness gen / np)
          (totalFitness gen / np * u 0)).length = np ∧
      (2 ≤ np → ∃ pr, stochastic_universal_sampling gen np u = some pr)) ∧
    ∀ u : ℕ → ℚ, 0 ≤ u 0 → u 0 < 1 →
      (susParents [⟨[1], 1⟩, ⟨[2], 1⟩, ⟨[3], 1⟩, ⟨[4], 1⟩] 2
          (totalFitness [⟨[1], 1⟩, ⟨[2], 1⟩, ⟨[3], 1⟩, ⟨[4], 1⟩] / 2)
          (totalFitness [⟨[1], 1⟩, ⟨[2], 1⟩, ⟨[3], 1⟩, ⟨[4], 1⟩] / 2 *
            u 0)).length = 2 ∧
      ∃ pr, stochastic_universal_sampling
        [⟨[1], 1⟩, ⟨[2], 1⟩, ⟨[3], 1⟩, ⟨[4], 1⟩] 2 u = some pr := by
  have main : ∀ (gen : List Candidate) (np : ℕ) (u : ℕ → ℚ), np ≠ 0 →
      0 < totalFitness gen → 0 ≤ u 0 → u 0 < 1 →
      (susParents gen np (totalFitness gen / np)
          (totalFitness gen / np * u 0)).length = np ∧
      (2 ≤ np → ∃ pr, stochastic_universal_sampling gen np u = some pr) := by
    intro gen np u hnp ht hu0 hu1
    have hsp_pos : 0 < totalFitness gen / np := by positivity
    have hs0 : 0 ≤ totalFitness gen / np * u 0 :=
      mul_nonneg (le_of_lt hsp_pos) hu0
    have hs1 : totalFitness gen / np * u 0 < totalFitness gen / np := by
      calc totalFitness gen / np * u 0 < totalFitness gen / np * 1 := by
            exact mul_lt_mul_of_pos_left hu1 hsp_pos
        _ = totalFitness gen / np := mul_one _
    have hlen := susParents_length gen np _ hnp ht hs0 hs1
    refine ⟨hlen, fun h2 => ?_⟩
    unfold stochastic_universal_sampling
    rw [if_neg hnp]
    dsimp only
    rcases hps : susParents gen np (totalFitness gen / np)
        (totalFitness gen / np * u 0) with _ | ⟨a, tail⟩
    · rw [hps] at hlen
      simp at hlen
      omega
    · rcases tail with _ | ⟨b, tail2⟩
      · rw [hps] at hlen
        simp at hlen
        omega
      · exact ⟨(a, b), rfl⟩
  refine ⟨main, fun u hu0 hu1 => ?_⟩
  have ht : (0 : ℚ) < totalFitness [⟨[1], 1⟩, ⟨[2], 1⟩, ⟨[3], 1⟩, ⟨[4], 1⟩] := by
    norm_num [totalFitness]
  have h := main [⟨[1], 1⟩, ⟨[2], 1⟩, ⟨[3], 1⟩, ⟨[4], 1⟩] 2 u
    (by omega) ht hu0 hu1
  exact ⟨h.1, h.2 le_rfl⟩

/-- C6 witness: the SUS scenario at the concrete start draw `u = 1/2`
(start point equal to half the pointer spacing). -/
theorem c6_sus_exact_count_witness :
    (susParents [⟨[1], 1⟩, ⟨[2], 1⟩, ⟨[3], 1⟩, ⟨[4], 1⟩] 2
        (totalFitness [⟨[1], 1⟩, ⟨[2], 1⟩, ⟨[3], 1⟩, ⟨[4], 1⟩] / 2)
        (totalFitness [⟨[1], 1⟩, ⟨[2], 1⟩, ⟨[3], 1⟩, ⟨[4], 1⟩] / 2 *
          (fun _ : ℕ => (1 : ℚ) / 2) 0)).length = 2 ∧
    ∃ pr, stochastic_universal_sampling
      [⟨[1], 1⟩, ⟨[2], 1⟩, ⟨[3], 1⟩, ⟨[4], 1⟩] 2
      (fun _ => (1 : ℚ) / 2) = some pr :=
  c6_sus_exact_count.2 (fun _ => 1 / 2) (by norm_num) (by norm_num)

lemma oxFill_replicate_none (n : ℕ) :
    ∀ (t : List (Option ℚ)) (gs : List ℚ), n ≤ gs.length →
      oxFill (List.replicate n none ++ t) gs =
        (oxFill t (gs.drop n)).map (fun l => gs.take n ++ l) := by
  induction n with
  | zero =>
    intro t gs _
    simp
  | succ n ih =>
    intro t gs h
    rcases gs with _ | ⟨g, gs⟩
    · simp at h
    · simp only [List.replicate_succ, List.cons_append, oxFill,
        List.append_eq]
      rw [ih t gs (by simpa using h)]
      simp only [Option.map_map, List.drop_succ_cons, List.take_succ_cons]
      rfl

lemma oxFill_map_some (seg : List ℚ) :
    ∀ (t : List (Option ℚ)) (gs : List ℚ),
      oxFill (seg.map some ++ t) gs =
        (oxFill t gs).map (fun l => seg ++ l) := by
  induction seg with
  | nil =>
    intro t gs
    simp
  | cons x seg ih =>
    intro t gs
    simp only [List.map_cons, List.cons_append, oxFill, List.append_eq]
    rw [ih t gs]
    simp only [Option.map_map]
    rfl

lemma oxFill_replicate_none_nil (n : ℕ) (gs : List ℚ)
    (h : n ≤ gs.length) :
    oxFill (List.replicate n none) gs = some (gs.take n) := by
  have h0 := oxFill_replicate_none n [] gs h
  simpa [oxFill] using h0

lemma ox_split (p1 : List ℚ) (s e : ℕ) (hse : s ≤ e)
    (_hel : e ≤ p1.length) :
    p1.take s ++ oxSeg p1 s e ++ p1.drop e = p1 := by
  unfold oxSeg pySlice
  rw [List.append_assoc]
  have hdrop : (p1.drop s).take (e - s) ++ p1.drop e = p1.drop s := by
    have h1 : p1.drop e = (p1.drop s).drop (e - s) := by
      rw [List.drop_drop]
      congr 1
      omega
    rw [h1, List.take_append_drop]
  rw [hdrop, List.take_append_drop]

lemma filter_not_mem_middle (A S B : List ℚ)
    (hnd : (A ++ S ++ B).Nodup) :
    (A ++ S ++ B).filter (fun g => decide (g ∉ S)) = A ++ B := by
  rw [List.append_assoc] at hnd
  rw [List.nodup_append] at hnd
  obtain ⟨hndA, hndSB, hdisjA⟩ := hnd
  rw [List.nodup_append] at hndSB
  obtain ⟨hndS, hndB, hdisjSB⟩ := hndSB
  rw [List.filter_append, List.filter_append]
  have hA : A.filter (fun g => decide (g ∉ S)) = A := by
    rw [List.filter_eq_self]
    intro a ha
    simp only [decide_eq_true_eq]
    intro haseg
    exact hdisjA ha (List.mem_append_left _ haseg)
  have hS : S.filter (fun g => decide (g ∉ S)) = [] := by
    rw [List.filter_eq_nil_iff]
    intro a ha
    simp only [decide_eq_true_eq, not_not]
    exact ha
  have hB : B.filter (fun g => decide (g ∉ S)) = B := by
    rw [List.filter_eq_self]
    intro a ha
    simp only [decide_eq_true_eq]
    intro haseg
    exact hdisjSB haseg ha
  rw [hA, hS, hB, List.append_nil]

lemma ox_filter_p1 (p1 : List ℚ) (s e : ℕ) (hse : s ≤ e)
    (hel : e ≤ p1.length) (hnd : p1.Nodup) :
    p1.filter (fun g => decide (g ∉ oxSeg p1 s e)) =
      p1.take s ++ p1.drop e := by
  have h := filter_not_mem_middle (p1.take s) (oxSeg p1 s e) (p1.drop e)
    (by rw [ox_split p1 s e hse hel]; exact hnd)
  rw [ox_split p1 s e hse hel] at h
  exact h

lemma ox_free_perm (p1 p2 : List ℚ) (s e : ℕ) (hse : s ≤ e)
    (hel : e ≤ p1.length) (hnd : p1.Nodup) (hperm : p1.Perm p2) :
    (oxFree p1 p2 s e).Perm (p1.take s ++ p1.drop e) := by
  unfold oxFree
  have h1 := (hperm.symm).filter (fun g => decide (g ∉ oxSeg p1 s e))
  rw [ox_filter_p1 p1 s e hse hel hnd] at h1
  exact h1

lemma ox_free_length (p1 p2 : List ℚ) (s e : ℕ) (hse : s ≤ e)
    (hel : e ≤ p1.length) (hnd : p1.Nodup) (hperm : p1.Perm p2) :
    (oxFree p1 p2 s e).length = s + (p1.length - e) := by
  rw [(ox_free_perm p1 p2 s e hse hel hnd hperm).length_eq]
  rw [List.length_append, List.length_take, List.length_drop]
  have : s ≤ p1.length := le_trans hse hel
  omega

lemma ox_fill_eq (p1 p2 : List ℚ) (s e : ℕ) (hse : s ≤ e)
    (hel : e ≤ p1.length) (hnd : p1.Nodup) (hperm : p1.Perm p2) :
    oxFill (oxTemplate p1 s e) (oxFree p1 p2 s e) =
      some ((oxFree p1 p2 s e).take s ++
        (oxSeg p1 s e ++ (oxFree p1 p2 s e).drop s)) := by
  have hflen := ox_free_length p1 p2 s e hse hel hnd hperm
  unfold oxTemplate
  rw [List.append_assoc]
  rw [oxFill_replicate_none s _ _ (by omega)]
  rw [oxFill_map_some]
  rw [oxFill_replicate_none_nil (p1.length - e) _ (by
    rw [List.length_drop]
    omega)]
  have hdrop_take : ((oxFree p1 p2 s e).drop s).take (p1.length - e) =
      (oxFree p1 p2 s e).drop s := by
    apply List.take_of_length_le
    rw [List.length_drop]
    omega
  rw [hdrop_take]
  rfl

lemma ox_result_perm (p1 p2 : List ℚ) (s e : ℕ) (hse : s ≤ e)
    (hel : e ≤ p1.length) (hnd : p1.Nodup) (hperm : p1.Perm p2) :
    ((oxFree p1 p2 s e).take s ++
      (oxSeg p1 s e ++ (oxFree p1 p2 s e).drop s)).Perm p1 := by
  have h1 : ((oxFree p1 p2 s e).take s ++
      (oxSeg p1 s e ++ (oxFree p1 p2 s e).drop s)).Perm
      (oxSeg p1 s e ++ oxFree p1 p2 s e) := by
    refine (List.perm_append_comm_assoc _ _ _).trans ?_
    rw [List.take_append_drop]
  have h2 : (oxSeg p1 s e ++ oxFree p1 p2 s e).Perm
      (oxSeg p1 s e ++ (p1.take s ++ p1.drop e)) :=
    (ox_free_perm p1 p2 s e hse hel hnd hperm).append_left _
  have h3 : (oxSeg p1 s e ++ (p1.take s ++ p1.drop e)).Perm p1 := by
    refine (List.perm_append_comm_assoc _ _ _).trans ?_
    rw [← List.append_assoc, ox_split p1 s e hse hel]
  exact (h1.trans h2).trans h3

/-- C7.  When the two parents' chromosomes are permutations of the same
multiset of distinct values (equal length follows), `order_crossover`
succeeds for every random choice of segment bounds and its offspring
chromosome is a permutation of that multiset. -/
theorem c7_order_crossover_perm :
    ∀ (parent1 parent2 : Candidate) (start stop : ℕ),
      parent1.chromosome.Nodup →
      parent1.chromosome.Perm parent2.chromosome →
      start ≤ stop → stop ≤ parent1.chromosome.length →
      ∃ off : Candidate,
        order_crossover parent1 parent2 start stop = some off ∧
          off.chromosome.Perm parent1.chromosome := by
  intro parent1 parent2 s e hnd hperm hse hel
  refine ⟨⟨(oxFree parent1.chromosome parent2.chromosome s e).take s ++
    (oxSeg parent1.chromosome s e ++
      (oxFree parent1.chromosome parent2.chromosome s e).drop s), 0⟩,
    ?_, ?_⟩
  · unfold order_crossover
    rw [ox_fill_eq parent1.chromosome parent2.chromosome s e hse hel hnd
      hperm]
    rfl
  · exact ox_result_perm parent1.chromosome parent2.chromosome s e hse hel
      hnd hperm

/-- C7 witness: parents `[1,2,3,4]` and `[4,3,2,1]` with segment bounds
`(1, 3)` produce an offspring that is a permutation of `[1,2,3,4]`. -/
theorem c7_order_crossover_perm_witness :
    ∃ off : Candidate,
      order_crossover ⟨[1, 2, 3, 4], 0⟩ ⟨[4, 3, 2, 1], 0⟩ 1 3 = some off ∧
        off.chromosome.Perm
          (⟨[1, 2, 3, 4], 0⟩ : Candidate).chromosome :=
  c7_order_crossover_perm ⟨[1, 2, 3, 4], 0⟩ ⟨[4, 3, 2, 1], 0⟩ 1 3
    (by decide) (by decide) (by decide) (by decide)

lemma chain_le_getLastD :
    ∀ (l : List ℕ) (a : ℕ), List.Chain (· ≤ ·) a l → a ≤ l.getLastD a := by
  intro l
  induction l with
  | nil => intro a _; exact le_rfl
  | cons b l ih =>
    intro a h
    rw [List.chain_cons] at h
    rw [List.getLastD_cons]
    exact le_trans h.1 (ih b h.2)

lemma chain_le_append_singleton :
    ∀ (l : List ℕ) (a b : ℕ), List.Chain (· ≤ ·) a l →
      l.getLastD a ≤ b → List.Chain (· ≤ ·) a (l ++ [b]) := by
  intro l
  induction l with
  | nil =>
    intro a b _ hb
    exact List.chain_cons.mpr ⟨hb, List.Chain.nil⟩
  | cons c l ih =>
    intro a b h hb
    rw [List.chain_cons] at h
    rw [List.getLastD_cons] at hb
    exact List.chain_cons.mpr ⟨h.1, ih c b h.2 hb⟩

lemma pySlice_length (p : List ℚ) (a b : ℕ) (hb : b ≤ p.length) :
    (pySlice p a b).length = b - a := by
  unfold pySlice
  rw [List.length_take, List.length_drop]
  omega

lemma nPointGo_length (p1 p2 : List ℚ)
    (hlen : p2.length = p1.length) :
    ∀ (l : List ℕ) (prev : ℕ) (sw : Bool),
      List.Chain (· ≤ ·) prev l → (∀ x ∈ l, x ≤ p1.length) →
      (nPointGo p1 p2 prev sw l).length = l.getLastD prev - prev := by
  intro l
  induction l with
  | nil =>
    intro prev sw _ _
    show (0 : ℕ) = prev - prev
    omega
  | cons pt rest ih =>
    intro prev sw hchain hbound
    rw [List.chain_cons] at hchain
    unfold nPointGo
    rw [List.length_append]
    have hpt : pt ≤ p1.length := hbound pt (List.mem_cons_self pt rest)
    have hsl : (if sw then pySlice p2 prev pt
        else pySlice p1 prev pt).length = pt - prev := by
      cases sw
      · exact pySlice_length p1 prev pt hpt
      · exact pySlice_length p2 prev pt (by omega)
    rw [hsl,
      ih pt (!sw) hchain.2 (fun x hx => hbound x (List.mem_cons_of_mem _ hx)),
      List.getLastD_cons]
    have h2 : pt ≤ rest.getLastD pt := chain_le_getLastD rest pt hchain.2
    omega

lemma foldl_set_length (newGene : ℕ → ℚ) :
    ∀ (idxs : List ℕ) (ch : List ℚ),
      (idxs.foldl (fun ch idx => ch.set idx (newGene idx)) ch).length =
        ch.length := by
  intro idxs
  induction idxs with
  | nil => intro ch; rfl
  | cons i idxs ih =>
    intro ch
    rw [List.foldl_cons, ih, List.length_set]

/-- C8.  With equal-length parents, n-point, uniform, arithmetic and blend
crossover produce an offspring chromosome of the parents' length (for
n-point, under the cut-point ordering and bounds `sorted(random.sample)`
guarantees); all nine mutation operators produce a chromosome of the
input's length (scramble under the slice bounds and the fact that
`random.shuffle` permutes the slice); and cut-and-splice crossover can
change the length. -/
theorem c8_length_invariants :
    (∀ (parent1 parent2 : Candidate) (pts : List ℕ),
      parent2.chromosome.length = parent1.chromosome.length →
      List.Chain (· ≤ ·) 0 pts →
      (∀ x ∈ pts, x ≤ parent1.chromosome.length) →
      (n_point_crossover parent1 parent2 pts).chromosome.length =
        parent1.chromosome.length) ∧
    (∀ (parent1 parent2 : Candidate) (coin : ℕ → Bool),
      parent2.chromosome.length = parent1.chromosome.length →
      (uniform_crossover parent1 parent2 coin).chromosome.length =
        parent1.chromosome.length) ∧
    (∀ (parent1 parent2 : Candidate) (alpha : ℚ),
      parent2.chromosome.length = parent1.chromosome.length →
      (arithmetic_crossover parent1 parent2 alpha).chromosome.length =
        parent1.chromosome.length) ∧
    (∀ (parent1 parent2 : Candidate) (alpha : ℚ) (u : ℕ → ℚ),
      parent2.chromosome.length = parent1.chromosome.length →
      (blend_crossover parent1 parent2 alpha u).chromosome.length =
        parent1.chromosome.length) ∧
    (∀ (c : Candidate) (p : ℚ) (u newGene : ℕ → ℚ),
      (uniform_mutation c p u newGene).chromosome.length =
        c.chromosome.length) ∧
    (∀ (c : Candidate) (idxs : List ℕ) (newGene : ℕ → ℚ),
      (multi_point_mutation c idxs newGene).chromosome.length =
        c.chromosome.length) ∧
    (∀ (c : Candidate) (noise : ℕ → ℚ),
      (gaussian_mutation c noise).chromosome.length =
        c.chromosome.length) ∧
    (∀ (c : Candidate) (lo hi : ℚ) (i : ℕ) (b : Bool),
      (boundary_mutation c lo hi i b).chromosome.length =
        c.chromosome.length) ∧
    (∀ (c : Candidate) (i j : ℕ),
      (swap_mutation c i j).chromosome.length = c.chromosome.length) ∧
    (∀ (c : Candidate) (s e : ℕ) (sh : List ℚ), s ≤ e →
      e ≤ c.chromosome.length → sh.Perm (pySlice c.chromosome s e) →
      (scramble_mutation c s e sh).chromosome.length =
        c.chromosome.length) ∧
    (∀ (c : Candidate) (s e : ℕ), s ≤ e → e ≤ c.chromosome.length →
      (inversion_mutation c s e).chromosome.length =
        c.chromosome.length) ∧
    (∀ (c : Candidate) (g mg p : ℚ) (u delta : ℕ → ℚ) (sign : ℕ → Bool),
      (non_uniform_mutation c g mg p u delta sign).chromosome.length =
        c.chromosome.length) ∧
    (∀ (c : Candidate) (pop : List Candidate) (thr p : ℚ)
      (u newGene : ℕ → ℚ) (off : Candidate),
      adaptive_mutation c pop thr p u newGene = some off →
      off.chromosome.length = c.chromosome.length) ∧
    ∃ (parent1 parent2 : Candidate) (c1 c2 : ℕ),
      (cut_and_splice_crossover parent1 parent2 c1 c2).chromosome.length ≠
        parent1.chromosome.length := by
  refine ⟨?_, ?_, ?_, ?_, ?_, ?_, ?_, ?_, ?_, ?_, ?_, ?_, ?_, ?_⟩
  · intro parent1 parent2 pts hlen hchain hbound
    show (nPointGo parent1.chromosome parent2.chromosome 0 false
      (pts ++ [parent1.chromosome.length])).length = _
    rw [nPointGo_length parent1.chromosome parent2.chromosome hlen
      (pts ++ [parent1.chromosome.length]) 0 false
      (chain_le_append_singleton pts 0 parent1.chromosome.length hchain
        (by
          rcases pts with _ | ⟨a, l⟩
          · exact Nat.zero_le _
          · have hm : (a :: l).getLastD 0 ∈ a :: l := by
              rw [List.getLastD_cons]
              exact List.getLastD_mem_cons l a
            exact hbound _ hm))
      (by
        intro x hx
        rcases List.mem_append.mp hx with h | h
        · exact hbound x h
        · rw [List.mem_singleton.mp h]),
      List.getLastD_concat]
    omega
  · intro parent1 parent2 coin hlen
    show ((parent1.chromosome.zip parent2.chromosome).enum.map _).length = _
    rw [List.length_map, List.enum_length, List.length_zip]
    omega
  · intro parent1 parent2 alpha hlen
    show ((parent1.chromosome.zip parent2.chromosome).map _).length = _
    rw [List.length_map, List.length_zip]
    omega
  · intro parent1 parent2 alpha u hlen
    show ((parent1.chromosome.zip parent2.chromosome).enum.map _).length = _
    rw [List.length_map, List.enum_length, List.length_zip]
    omega
  · intro c p u newGene
    show (c.chromosome.enum.map _).length = _
    rw [List.length_map, List.enum_length]
  · intro c idxs newGene
    exact foldl_set_length newGene idxs c.chromosome
  · intro c noise
    show (c.chromosome.enum.map _).length = _
    rw [List.length_map, List.enum_length]
  · intro c lo hi i b
    show (c.chromosome.set i _).length = _
    rw [List.length_set]
  · intro c i j
    show ((c.chromosome.set i _).set j _).length = _
    rw [List.length_set, List.length_set]
  · intro c s e sh hse hel hperm
    show (c.chromosome.take s ++ sh ++ c.chromosome.drop e).length = _
    rw [List.length_append, List.length_append, List.length_take,
      List.length_drop, hperm.length_eq, pySlice_length _ _ _ hel]
    omega
  · intro c s e hse hel
    show (c.chromosome.take s ++ (pySlice c.chromosome s e).reverse ++
      c.chromosome.drop e).length = _
    rw [List.length_append, List.length_append, List.length_take,
      List.length_drop, List.length_reverse, pySlice_length _ _ _ hel]
    omega
  · intro c g mg p u delta sign
    show (c.chromosome.enum.map _).length = _
    rw [List.length_map, List.enum_length]
  · intro c pop thr p u newGene off hoff
    unfold adaptive_mutation at hoff
    split at hoff
    · cases hoff
    · dsimp only at hoff
      cases hoff
      show (c.chromosome.enum.map _).length = _
      rw [List.length_map, List.enum_length]
  · refine ⟨⟨[1, 2], 0⟩, ⟨[3, 4], 0⟩, 1, 0, ?_⟩
    decide

/-- C8 witness: the length-preservation conclusions instantiated on
concrete parents of length 2 (chromosomes `[1,2]` and `[3,4]`) and on a
concrete scramble with its slice shuffled. -/
theorem c8_length_invariants_witness :
    (n_point_crossover ⟨[1, 2], 0⟩ ⟨[3, 4], 0⟩ [1]).chromosome.length =
        (⟨[1, 2], 0⟩ : Candidate).chromosome.length ∧
      (uniform_crossover ⟨[1, 2], 0⟩ ⟨[3, 4], 0⟩
          (fun _ => true)).chromosome.length =
        (⟨[1, 2], 0⟩ : Candidate).chromosome.length ∧
      (scramble_mutation ⟨[1, 2, 3], 0⟩ 0 2 [2, 1]).chromosome.length =
        (⟨[1, 2, 3], 0⟩ : Candidate).chromosome.length ∧
      adaptive_mutation ⟨[1, 2], 1⟩ [⟨[9], 1⟩] 0 0 (fun _ => 1)
          (fun _ => 0) = some ⟨[1, 2], 0⟩ ∧
      (⟨[1, 2], 0⟩ : Candidate).chromosome.length =
        (⟨[1, 2], 1⟩ : Candidate).chromosome.length := by
  have heval : adaptive_mutation ⟨[1, 2], 1⟩ [⟨[9], 1⟩] 0 0 (fun _ => 1)
      (fun _ => 0) = some ⟨[1, 2], 0⟩ := by
    norm_num [adaptive_mutation, totalFitness, List.enum, List.enumFrom]
  refine ⟨?_, ?_, ?_, heval, ?_⟩
  · exact c8_length_invariants.1 ⟨[1, 2], 0⟩ ⟨[3, 4], 0⟩ [1] rfl
      (List.Chain.cons (by omega) List.Chain.nil) (by decide)
  · exact c8_length_invariants.2.1 ⟨[1, 2], 0⟩ ⟨[3, 4], 0⟩
      (fun _ => true) rfl
  · exact c8_length_invariants.2.2.2.2.2.2.2.2.2.1 ⟨[1, 2, 3], 0⟩ 0 2
      [2, 1] (by decide) (by decide) (by decide)
  · exact c8_length_invariants.2.2.2.2.2.2.2.2.2.2.2.2.1 ⟨[1, 2], 1⟩
      [⟨[9], 1⟩] 0 0 (fun _ => 1) (fun _ => 0) ⟨[1, 2], 0⟩ heval

/-- C10.  Every crossover and mutation operator returns a newly
constructed Candidate whose fitness field is exactly `0.0` (the
constructor default), regardless of the parents' fitness values; and a
candidate whose objective genuinely evaluates to `0` is, after
`calculate_fitness`, the very same value as an unevaluated offspring with
that chromosome — the sentinel is indistinguishable from a real fitness
of `0.0`. -/
theorem c10_offspring_fitness_zero :
    (∀ (p1 p2 : Candidate) (pts : List ℕ),
      (n_point_crossover p1 p2 pts).fitness = 0) ∧
    (∀ (p1 p2 : Candidate) (coin : ℕ → Bool),
      (uniform_crossover p1 p2 coin).fitness = 0) ∧
    (∀ (p1 p2 : Candidate) (alpha : ℚ),
      (arithmetic_crossover p1 p2 alpha).fitness = 0) ∧
    (∀ (p1 p2 : Candidate) (alpha : ℚ) (u : ℕ → ℚ),
      (blend_crossover p1 p2 alpha u).fitness = 0) ∧
    (∀ (p1 p2 : Candidate) (c1 c2 : ℕ),
      (cut_and_splice_crossover p1 p2 c1 c2).fitness = 0) ∧
    (∀ (p1 p2 : Candidate) (s e : ℕ) (off : Candidate),
      order_crossover p1 p2 s e = some off → off.fitness = 0) ∧
    (∀ (c : Candidate) (p : ℚ) (u newGene : ℕ → ℚ),
      (uniform_mutation c p u newGene).fitness = 0) ∧
    (∀ (c : Candidate) (idxs : List ℕ) (newGene : ℕ → ℚ),
      (multi_point_mutation c idxs newGene).fitness = 0) ∧
    (∀ (c : Candidate) (noise : ℕ → ℚ),
      (gaussian_mutation c noise).fitness = 0) ∧
    (∀ (c : Candidate) (lo hi : ℚ) (i : ℕ) (b : Bool),
      (boundary_mutation c lo hi i b).fitness = 0) ∧
    (∀ (c : Candidate) (i j : ℕ), (swap_mutation c i j).fitness = 0) ∧
    (∀ (c : Candidate) (s e : ℕ) (sh : List ℚ),
      (scramble_mutation c s e sh).fitness = 0) ∧
    (∀ (c : Candidate) (s e : ℕ), (inversion_mutation c s e).fitness = 0) ∧
    (∀ (c : Candidate) (g mg p : ℚ) (u delta : ℕ → ℚ) (sign : ℕ → Bool),
      (non_uniform_mutation c g mg p u delta sign).fitness = 0) ∧
    (∀ (c : Candidate) (pop : List Candidate) (thr p : ℚ)
      (u newGene : ℕ → ℚ) (off : Candidate),
      adaptive_mutation c pop thr p u newGene = some off →
      off.fitness = 0) ∧
    ∀ (c : Candidate) (f : List ℚ → ℚ), f c.chromosome = 0 →
      c.calculate_fitness f = ⟨c.chromosome, 0⟩ := by
  refine ⟨fun _ _ _ => rfl, fun _ _ _ => rfl, fun _ _ _ => rfl,
    fun _ _ _ _ => rfl, fun _ _ _ _ => rfl, ?_, fun _ _ _ _ => rfl,
    fun _ _ _ => rfl, fun _ _ => rfl, fun _ _ _ _ _ => rfl,
    fun _ _ _ => rfl, fun _ _ _ _ => rfl, fun _ _ _ => rfl,
    fun _ _ _ _ _ _ _ => rfl, ?_, ?_⟩
  · intro p1 p2 s e off h
    unfold order_crossover at h
    rcases Option.map_eq_some'.mp h with ⟨l, _, rfl⟩
    rfl
  · intro c pop thr p u newGene off h
    unfold adaptive_mutation at h
    split at h
    · cases h
    · dsimp only at h
      cases h
      rfl
  · intro c f hf
    unfold Candidate.calculate_fitness
    rw [hf]

/-- C10 witness: a concrete order-crossover offspring and a concrete
adaptive-mutation offspring both carry fitness 0 despite nonzero parent
fitness, and evaluating a candidate under an objective returning 0 yields
exactly the constructor-default value. -/
theorem c10_offspring_fitness_zero_witness :
    order_crossover ⟨[1, 2], 7⟩ ⟨[2, 1], 8⟩ 0 1 = some ⟨[1, 2], 0⟩ ∧
      (⟨[1, 2], 0⟩ : Candidate).fitness = 0 ∧
      adaptive_mutation ⟨[1], 9⟩ [⟨[2], 1⟩] 0 0 (fun _ => 1)
        (fun _ => 0) = some ⟨[1], 0⟩ ∧
      (⟨[1], 0⟩ : Candidate).fitness = 0 ∧
      Candidate.calculate_fitness ⟨[3], 5⟩ (fun _ => 0) = ⟨[3], 0⟩ := by
  have h1 : order_crossover ⟨[1, 2], 7⟩ ⟨[2, 1], 8⟩ 0 1 =
      some ⟨[1, 2], 0⟩ := by decide
  have h2 : adaptive_mutation ⟨[1], 9⟩ [⟨[2], 1⟩] 0 0 (fun _ => 1)
      (fun _ => 0) = some ⟨[1], 0⟩ := by
    norm_num [adaptive_mutation, totalFitness, List.enum, List.enumFrom]
  refine ⟨h1, ?_, h2, ?_, ?_⟩
  · exact c10_offspring_fitness_zero.2.2.2.2.2.1 ⟨[1, 2], 7⟩ ⟨[2, 1], 8⟩
      0 1 ⟨[1, 2], 0⟩ h1
  · exact c10_offspring_fitness_zero.2.2.2.2.2.2.2.2.2.2.2.2.2.2.1
      ⟨[1], 9⟩ [⟨[2], 1⟩] 0 0 (fun _ => 1) (fun _ => 0) ⟨[1], 0⟩ h2
  · exact c10_offspring_fitness_zero.2.2.2.2.2.2.2.2.2.2.2.2.2.2.2
      ⟨[3], 5⟩ (fun _ => 0) rfl

end CodeExamples
